import Mathlib

/-!
Verification development for the GrammarZen proofreading core.

Strings are modelled as `List Char` (one entry per character, matching the
character-level operations of the source).  The embedded functions follow
`src/components/ResultView.tsx` (diff blocks, issue locator, segment renderer,
issue actions) and the streaming result parser of
`src/services/geminiService.ts` / `src/unnamed/part_005`.

The character diff itself is provided by the external `diff` npm package
(`diffChars`), whose implementation is not part of this repository; it is
modelled from the spec (§4.2) as a minimal LCS edit script with
delete-before-insert tie-breaking.
-/

namespace GrammarZen

/-- JS `String.prototype.indexOf` on character lists: position of the first
occurrence of `needle` in `hay`, `none` when absent (`-1` in JS).
`substrIdx [] hay = some 0`, as in JS. -/
def substrIdx (needle : List Char) : List Char → Option Nat
  | [] => if List.isPrefixOf needle [] then some 0 else none
  | c :: t =>
    if List.isPrefixOf needle (c :: t) then some 0
    else (substrIdx needle t).map (· + 1)

/-- Number of occurrence positions of `needle` in `hay` (positions `0..hay.length`). -/
def occCount (needle hay : List Char) : Nat :=
  (List.range (hay.length + 1)).countP (fun i => List.isPrefixOf needle (hay.drop i))

/-! ## Character diff engine

`diffChars` is the entry point used by `ResultView.tsx` (imported from the
`diff` package, whose source is not in this repository).  Modelled from the
spec: minimal character edit script, deterministic, delete runs preferred
before insert runs at the same position.  Output ops mirror the package's
`Change` objects: `value` plus `added`/`removed` flags (an `equal` op has
both flags false). -/
/-- One diff operation, mirroring the `diff` package's `Change`. -/
structure Change where
  value : List Char
  added : Bool
  removed : Bool
deriving DecidableEq, Repr

/-- Prepend one equal character, merging with a leading equal run. -/
def consEq (c : Char) : List Change → List Change
  | ⟨v, false, false⟩ :: t => ⟨c :: v, false, false⟩ :: t
  | l => ⟨[c], false, false⟩ :: l

/-- Prepend one deleted character, merging with a leading delete run. -/
def consDel (c : Char) : List Change → List Change
  | ⟨v, false, true⟩ :: t => ⟨c :: v, false, true⟩ :: t
  | l => ⟨[c], false, true⟩ :: l

/-- Prepend one inserted character, merging with a leading insert run. -/
def consIns (c : Char) : List Change → List Change
  | ⟨v, true, false⟩ :: t => ⟨c :: v, true, false⟩ :: t
  | l => ⟨[c], true, false⟩ :: l

/-- One dynamic-programming row step for the LCS length table. -/
def lcsRowGo (x : Char) : List Char → List Nat → Nat → List Nat
  | c :: cs, pdiag :: prest, left =>
    let v := if x = c then pdiag + 1 else max left (prest.headD 0)
    v :: lcsRowGo x cs prest v
  | _, _, _ => []

/-- Length of the longest common subsequence of `a` and `b` (iterative DP). -/
def lcsLen (a b : List Char) : Nat :=
  (a.foldl (fun row x => 0 :: lcsRowGo x b row 0) (List.replicate (b.length + 1) 0)).getLastD 0

/-- Modelled from the spec: the character diff recursion, fuel-bounded so that
it evaluates by kernel reduction (any fuel above the total input length is
sufficient and never reached). -/
def diffCharsGo : Nat → List Char → List Char → List Change
  | 0, _, _ => []
  | _ + 1, [], [] => []
  | _ + 1, [], y :: ys => [⟨y :: ys, true, false⟩]
  | _ + 1, x :: xs, [] => [⟨x :: xs, false, true⟩]
  | fuel + 1, x :: xs, y :: ys =>
    if x = y then consEq x (diffCharsGo fuel xs ys)
    else if lcsLen xs (y :: ys) ≥ lcsLen (x :: xs) ys then
      consDel x (diffCharsGo fuel xs (y :: ys))
    else
      consIns y (diffCharsGo fuel (x :: xs) ys)

/-- Modelled from the spec: the character diff (`diffChars` of the `diff`
package).  Produces a minimal edit script; at a mismatch the branch keeping
the longer common subsequence is taken, deletes preferred on ties. -/
def diffChars (a b : List Char) : List Change :=
  diffCharsGo (a.length + b.length + 1) a b

/-- Concatenation of the values of all non-insert ops (the left input's text). -/
def restA : List Change → List Char
  | [] => []
  | d :: t => (if d.added then [] else d.value) ++ restA t

/-- Concatenation of the values of all non-delete ops (the right input's text). -/
def restB : List Change → List Char
  | [] => []
  | d :: t => (if d.removed then [] else d.value) ++ restB t

/-! ## Issue data model (`src/types.ts`) -/
/-- Issue categories (`IssueType` in `src/types.ts`). -/
inductive IssueType where
  | typo | grammar | punctuation | style | suggestion | sensitive | privacy | format
deriving DecidableEq, Repr

/-- A flagged issue (`Issue` in `src/types.ts`). -/
structure Issue where
  original : List Char
  suggestion : List Char
  reason : List Char
  type : IssueType
deriving DecidableEq, Repr

/-- A located issue range in original-text coordinates; the source uses
`{start, end}` with `-1` for "unlocated" (`end` is renamed `stop` here
because `end` is a Lean keyword). -/
structure Loc where
  start : Int
  stop : Int
deriving DecidableEq, Repr

/-! ## Issue locator (`issueLocations` in `src/components/ResultView.tsx`, lines 399-460) -/
/-- A contiguous change block of the diff, as accumulated by the block loop of
`issueLocations`. -/
structure Block where
  origStart : Nat
  origEnd : Nat
  origText : List Char
  corrText : List Char
deriving DecidableEq, Repr

/-- The block-accumulation loop of `issueLocations` (lines 404-429):
`cur` is `currentBlock`, `oIdx` the original-coordinate cursor. -/
def buildBlocksAux : List Change → Option Block → Nat → List Block
  | [], cur, _ => (match cur with | some b => [b] | none => [])
  | c :: rest, cur, oIdx =>
    if c.added || c.removed then
      let b0 := cur.getD ⟨oIdx, oIdx, [], []⟩
      let b1 := if c.removed then
          { b0 with origText := b0.origText ++ c.value, origEnd := b0.origEnd + c.value.length }
        else b0
      let b2 := if c.added then { b1 with corrText := b1.corrText ++ c.value } else b1
      buildBlocksAux rest (some b2) (if c.removed then oIdx + c.value.length else oIdx)
    else
      match cur with
      | some b => b :: buildBlocksAux rest none (oIdx + c.value.length)
      | none => buildBlocksAux rest none (oIdx + c.value.length)

/-- Reduce a diff to its contiguous change blocks. -/
def buildBlocks (changes : List Change) : List Block :=
  buildBlocksAux changes none 0

/-- The `hasMatch` test of `issueLocations` (line 440): a block matches an issue when the
non-empty original snippet occurs in its deleted text or the non-empty
suggestion occurs in its inserted text (JS `issue.original &&` makes an empty
snippet falsy). -/
def matchBlock (iss : Issue) (b : Block) : Bool :=
  (decide (iss.original ≠ []) && (substrIdx iss.original b.origText).isSome)
  || (decide (iss.suggestion ≠ []) && (substrIdx iss.suggestion b.corrText).isSome)

/-- Scan of the block suffix beginning at index `i`, keeping track of the
absolute index. -/
def scanFromAux (iss : Issue) : List Block → Nat → Option (Nat × Block)
  | [], _ => none
  | b :: rest, i => if matchBlock iss b then some (i, b) else scanFromAux iss rest (i + 1)

/-- The inner `for (let i = blockCursor; ...)` scan of `issueLocations`:
first matching block at index `≥ i`. -/
def scanFrom (blocks : List Block) (iss : Issue) (i : Nat) : Option (Nat × Block) :=
  scanFromAux iss (blocks.drop i) i

/-- Location assigned on a block match (lines 443-453): snippet offset within
the deleted text when the non-empty snippet occurs there, else the pure
insertion anchor `[origStart, origStart]`. -/
def locResult (iss : Issue) (b : Block) : Loc :=
  if iss.original ≠ [] then
    match substrIdx iss.original b.origText with
    | some off => ⟨(b.origStart + off : Nat), ((b.origStart + off) + iss.original.length : Nat)⟩
    | none => ⟨(b.origStart : Nat), (b.origStart : Nat)⟩
  else ⟨(b.origStart : Nat), (b.origStart : Nat)⟩

/-- The per-issue loop of `issueLocations` (lines 431-458): monotone block
cursor, `⟨-1, -1⟩` when no block from the cursor onward matches. -/
def locateFromBlocks (blocks : List Block) : Nat → List Issue → List Loc
  | _, [] => []
  | cursor, iss :: rest =>
    match scanFrom blocks iss cursor with
    | some (i, b) => locResult iss b :: locateFromBlocks blocks i rest
    | none => ⟨-1, -1⟩ :: locateFromBlocks blocks cursor rest

/-- The locator `issueLocations` (lines 399-460), including the `!originalText` guard of
line 400 which returns `[]` for an empty original text. -/
def issueLocations (originalText correctedText : List Char) (issues : List Issue) : List Loc :=
  if originalText = [] then []
  else locateFromBlocks (buildBlocks (diffChars originalText correctedText)) 0 issues

/-- Instrumented variant of the per-issue loop recording, for each located
issue, also the index of the diff block it was assigned to. -/
def locateFromBlocksB (blocks : List Block) : Nat → List Issue → List (Option (Nat × Loc))
  | _, [] => []
  | cursor, iss :: rest =>
    match scanFrom blocks iss cursor with
    | some (i, b) => some (i, locResult iss b) :: locateFromBlocksB blocks i rest
    | none => none :: locateFromBlocksB blocks cursor rest

/-- Instrumented `issueLocations` recording assigned block indices. -/
def issueLocationsB (originalText correctedText : List Char) (issues : List Issue) :
    List (Option (Nat × Loc)) :=
  if originalText = [] then []
  else locateFromBlocksB (buildBlocks (diffChars originalText correctedText)) 0 issues

/-- Forget the block index of an instrumented locator entry. -/
def projLoc : Option (Nat × Loc) → Loc
  | some (_, l) => l
  | none => ⟨-1, -1⟩

/-! ## Block well-formedness -/
/-- Well-formedness of a block list over `orig`: blocks sit at increasing
original coordinates starting no earlier than `lo`, each block's `origText`
is exactly the slice of `orig` at `[origStart, origEnd)`. -/
def BlocksOK (orig : List Char) : Nat → List Block → Prop
  | _, [] => True
  | lo, b :: rest =>
    lo ≤ b.origStart ∧ b.origEnd = b.origStart + b.origText.length ∧
    b.origEnd ≤ orig.length ∧
    (orig.drop b.origStart).take b.origText.length = b.origText ∧
    BlocksOK orig b.origEnd rest

/-- Per-entry property of the instrumented locator output: block index at or
after the cursor, and range inside that block's original-coordinate span. -/
def EntryOK (blocks : List Block) (cursor : Nat) (e : Nat × Loc) : Prop :=
  cursor ≤ e.1 ∧ ∃ h : e.1 < blocks.length,
    ((blocks[e.1]).origStart : Int) ≤ e.2.start ∧ e.2.start ≤ e.2.stop ∧
    e.2.stop ≤ ((blocks[e.1]).origEnd : Int)

/-- All located entries are `EntryOK`, each one for the cursor produced by its
predecessors. -/
def EntriesOK (blocks : List Block) : Nat → List (Option (Nat × Loc)) → Prop
  | _, [] => True
  | cursor, none :: rest => EntriesOK blocks cursor rest
  | cursor, some e :: rest => EntryOK blocks cursor e ∧ EntriesOK blocks e.1 rest

/-- Written from the claim's words: a block matches an issue when the block's
deleted text contains the issue's original snippet, or the block's inserted
text contains the issue's suggestion (an absent snippet — the empty string —
matches nothing). -/
def specMatches (iss : Issue) (b : Block) : Bool :=
  (decide (iss.original ≠ []) && decide (iss.original <:+: b.origText))
  || (decide (iss.suggestion ≠ []) && decide (iss.suggestion <:+: b.corrText))

/-- Written from the claim's words: scanning forward from the cursor, the
index of the first matching block. -/
def specFirstMatch (blocks : List Block) (cursor : Nat) (iss : Issue) : Option Nat :=
  (List.range' cursor (blocks.length - cursor)).find?
    (fun k => specMatches iss (blocks.getD k ⟨0, 0, [], []⟩))

/-- Written from the claim's words: on a match with the (non-empty) original
snippet present in the deleted text, block start plus snippet offset; else the
block's start as an empty anchor. -/
def specAssign (iss : Issue) (b : Block) : Loc :=
  match (if iss.original ≠ [] then substrIdx iss.original b.origText else none) with
  | some off => ⟨(b.origStart + off : Nat), ((b.origStart + off) + iss.original.length : Nat)⟩
  | none => ⟨(b.origStart : Nat), (b.origStart : Nat)⟩

/-- Written from the claim's words: process the issues in order, the cursor
advancing to each matched block's index and never moving earlier; an issue
with no matching block from the cursor onward gets `⟨-1, -1⟩`. -/
def specLocate (blocks : List Block) : Nat → List Issue → List Loc
  | _, [] => []
  | cursor, iss :: rest =>
    match specFirstMatch blocks cursor iss with
    | some k => specAssign iss (blocks.getD k ⟨0, 0, [], []⟩) :: specLocate blocks k rest
    | none => ⟨-1, -1⟩ :: specLocate blocks cursor rest

/-! ## Segment renderer (`processedDiffs` in `ResultView.tsx`, lines 463-609) -/
/-- The active category filter (`activeFilter`): `'all'` or one issue type. -/
inductive Filter where
  | all
  | cat (t : IssueType)
deriving DecidableEq, Repr

/-- The filter-skip condition of `getIssueIndex` (lines 478-484): under the
combined `style` filter both `style` and `suggestion` match; under any other
category filter only that exact category matches. -/
def filterExcludes : Filter → IssueType → Bool
  | .all, _ => false
  | .cat IssueType.style, t => !(decide (t = IssueType.style) || decide (t = IssueType.suggestion))
  | .cat f, t => decide (t ≠ f)

/-- The scan loop of `getIssueIndex` (lines 472-496) from index `i` upward:
first unresolved, filter-matching issue whose location overlaps the segment.
(The `issues[i]?` miss case cannot occur in the pipeline, where the location
list is built as a map over the issue list.) -/
def getIssueIndexGo (issues : List Issue) (locations : List Loc) (resolved : List Nat)
    (filter : Filter) (s e : Int) (isAdded : Bool) : Nat → Nat → Option Nat
  | 0, _ => none
  | fuel + 1, i =>
    if h : i < locations.length then
      if i ∈ resolved then getIssueIndexGo issues locations resolved filter s e isAdded fuel (i + 1)
      else
        match issues[i]? with
        | none => getIssueIndexGo issues locations resolved filter s e isAdded fuel (i + 1)
        | some chk =>
          if filterExcludes filter chk.type then
            getIssueIndexGo issues locations resolved filter s e isAdded fuel (i + 1)
          else
            let loc := locations[i]
            if isAdded then
              if loc.start ≤ s ∧ s ≤ loc.stop then some i
              else getIssueIndexGo issues locations resolved filter s e isAdded fuel (i + 1)
            else
              if max s loc.start < min e loc.stop then some i
              else getIssueIndexGo issues locations resolved filter s e isAdded fuel (i + 1)
    else none

/-- The resolver `getIssueIndex` (lines 472-496): resolve the closest enclosing unresolved,
filter-matching issue for a segment range, `none` when there is none.  (The
fuel argument of the scan loop is exactly the number of remaining indices, so
it never runs out.) -/
def getIssueIndex (issues : List Issue) (locations : List Loc) (resolved : List Nat)
    (filter : Filter) (s e : Int) (isAdded : Bool) : Option Nat :=
  getIssueIndexGo issues locations resolved filter s e isAdded locations.length 0

/-- A display segment (`RenderPart` of `ResultView.tsx`). -/
structure RenderPart where
  value : List Char
  added : Bool
  removed : Bool
  highlighted : Bool
  issueIndex : Option Nat
  clickable : Bool
deriving DecidableEq, Repr

/-- The segments emitted for one diff op by the `rawDiffs.forEach` body of
`processedDiffs` (lines 501-605), at original-coordinate cursor `oIdx`
(`currentOrigIndex`). -/
def opParts (issues : List Issue) (locations : List Loc) (resolved : List Nat)
    (filter : Filter) (sel : Option Nat) (issue : Option Issue) (target : Option Loc)
    (d : Change) (oIdx : Nat) : List RenderPart :=
  if d.added = false ∧ d.removed = false then
    [⟨d.value, d.added, d.removed, false, none, false⟩]
  else if d.removed then
    let chunkStart : Int := (oIdx : Int)
    let chunkEnd : Int := (oIdx : Int) + d.value.length
    match target with
    | some t =>
      let oS := max chunkStart t.start
      let oE := min chunkEnd t.stop
      if oS < oE then
        let preLen := (oS - chunkStart).toNat
        let highLen := (oE - oS).toNat
        (if preLen > 0 then
          [⟨d.value.take preLen, d.added, d.removed, false,
            getIssueIndex issues locations resolved filter chunkStart (chunkStart + preLen) false, true⟩]
         else []) ++
        [⟨(d.value.drop preLen).take highLen, d.added, d.removed, true, sel, false⟩] ++
        (if preLen + highLen < d.value.length then
          [⟨d.value.drop (preLen + highLen), d.added, d.removed, false,
            getIssueIndex issues locations resolved filter (chunkStart + preLen + highLen) chunkEnd false, true⟩]
         else [])
      else
        [⟨d.value, d.added, d.removed, false,
          getIssueIndex issues locations resolved filter chunkStart chunkEnd false, true⟩]
    | none =>
      [⟨d.value, d.added, d.removed, false,
        getIssueIndex issues locations resolved filter chunkStart chunkEnd false, true⟩]
  else
    match target with
    | some t =>
      if t.start ≤ (oIdx : Int) ∧ (oIdx : Int) ≤ t.stop then
        let idxOpt : Option Nat :=
          match issue with
          | some iss => if iss.suggestion ≠ [] then substrIdx iss.suggestion d.value else none
          | none => none
        match idxOpt with
        | some idx =>
          let sugLen := (issue.map (fun iss => iss.suggestion.length)).getD 0
          (if idx > 0 then
            [⟨d.value.take idx, d.added, d.removed, false,
              getIssueIndex issues locations resolved filter (oIdx : Int) (oIdx : Int) true, true⟩]
           else []) ++
          [⟨(d.value.drop idx).take sugLen, d.added, d.removed, true, sel, false⟩] ++
          (if idx + sugLen < d.value.length then
            [⟨d.value.drop (idx + sugLen), d.added, d.removed, false,
              getIssueIndex issues locations resolved filter (oIdx : Int) (oIdx : Int) true, true⟩]
           else [])
        | none => [⟨d.value, d.added, d.removed, true, sel, false⟩]
      else
        [⟨d.value, d.added, d.removed, false,
          getIssueIndex issues locations resolved filter (oIdx : Int) (oIdx : Int) true, true⟩]
    | none =>
      [⟨d.value, d.added, d.removed, false,
        getIssueIndex issues locations resolved filter (oIdx : Int) (oIdx : Int) true, true⟩]

/-- How far one diff op advances the original-coordinate cursor: `equal` and
`delete` ops by their length, pure inserts not at all. -/
def opAdvance (d : Change) : Nat :=
  if d.added = false ∧ d.removed = false then d.value.length
  else if d.removed then d.value.length
  else 0

/-- The `rawDiffs.forEach` loop of `processedDiffs` (lines 501-605). -/
def processOps (issues : List Issue) (locations : List Loc) (resolved : List Nat)
    (filter : Filter) (sel : Option Nat) (issue : Option Issue) (target : Option Loc) :
    List Change → Nat → List RenderPart
  | [], _ => []
  | d :: rest, oIdx =>
    opParts issues locations resolved filter sel issue target d oIdx ++
      processOps issues locations resolved filter sel issue target rest (oIdx + opAdvance d)

/-- The renderer `processedDiffs` (lines 463-609): diff of original vs. current text split at
the selected issue's boundaries, with per-segment issue resolution. -/
def processedDiffs (originalText currentText : List Char) (issues : List Issue)
    (locations : List Loc) (sel : Option Nat) (resolved : List Nat) (filter : Filter) :
    List RenderPart :=
  let rawDiffs := if originalText ≠ [] then diffChars originalText currentText
                  else [⟨currentText, true, false⟩]
  let issue : Option Issue := sel.bind (fun i => issues[i]?)
  let target : Option Loc := sel.bind (fun i => locations[i]?)
  processOps issues locations resolved filter sel issue target rawDiffs 0

/-- Concatenated text of the non-removed display segments. -/
def partsText : List RenderPart → List Char
  | [] => []
  | p :: t => (if p.removed then [] else p.value) ++ partsText t

/-! ## Issue state machine (`handleAction`, lines 260-278; `filteredIssues`, lines 162-174) -/
/-- Per-issue disposition (`issueStatus` values). -/
inductive IssueStatus where
  | accepted | ignored | whitelisted
deriving DecidableEq, Repr

/-- The three per-issue actions. -/
inductive IssueAction where
  | accept | ignore | whitelist
deriving DecidableEq, Repr

/-- Interactive proofreading state of `ResultView` (`resolvedIndices`,
`currentText`, `issueStatus`). -/
structure ViewState where
  resolvedIndices : List Nat
  currentText : List Char
  issueStatus : List (Nat × IssueStatus)
deriving DecidableEq, Repr

/-- JS replacement-template expansion for `String.prototype.replace` with a
string replacement: `$$` is a literal dollar, `$&` the matched text, a dollar
followed by a backtick the portion before the match, `$'` the portion after;
any other text is copied verbatim. -/
def dollarSubst (matched before after : List Char) : List Char → List Char
  | [] => []
  | [c] => [c]
  | c :: d :: t =>
    if c = '$' then
      if d = '$' then '$' :: dollarSubst matched before after t
      else if d = '&' then matched ++ dollarSubst matched before after t
      else if d = Char.ofNat 96 then before ++ dollarSubst matched before after t
      else if d = Char.ofNat 39 then after ++ dollarSubst matched before after t
      else c :: dollarSubst matched before after (d :: t)
    else c :: dollarSubst matched before after (d :: t)

/-- JS `s.replace(pat, rep)` with string arguments: replace the first
occurrence of `pat`, expanding replacement escapes; `s` unchanged when `pat`
does not occur. -/
def jsReplace (pat rep s : List Char) : List Char :=
  match substrIdx pat s with
  | none => s
  | some i => s.take i ++ dollarSubst pat (s.take i) (s.drop (i + pat.length)) rep
      ++ s.drop (i + pat.length)

/-- The action handler `handleAction` (lines 260-278) as a pure state transformer.  Returns the
new state and the word emitted to the whitelist collaborator
(`onAddToWhitelist`), if any. -/
def handleAction (index : Nat) (action : IssueAction)
    (issueOriginal issueSuggestion : List Char) (st : ViewState) :
    ViewState × Option (List Char) :=
  let status := match action with
    | .accept => IssueStatus.accepted
    | .whitelist => IssueStatus.whitelisted
    | .ignore => IssueStatus.ignored
  let newText := if action = .ignore ∨ action = .whitelist
    then jsReplace issueSuggestion issueOriginal st.currentText
    else st.currentText
  (⟨index :: st.resolvedIndices, newText, (index, status) :: st.issueStatus⟩,
   if action = .whitelist then some issueOriginal else none)

/-- The filter `filteredIssues` (lines 162-174): the active (unresolved, filter-matching)
issues, each with its stable original index. -/
def filteredIssues (issues : List Issue) (resolved : List Nat) (filter : Filter) :
    List (Nat × Issue) :=
  ((issues.enum).filter (fun p => decide (p.1 ∉ resolved))).filter
    (fun p =>
      match filter with
      | .all => true
      | .cat IssueType.style =>
        decide (p.2.type = IssueType.style) || decide (p.2.type = IssueType.suggestion)
      | .cat f => decide (p.2.type = f))

/-- Syntactic absence of the active replacement-template escapes. -/
def noEscape : List Char → Bool
  | [] => true
  | [_] => true
  | c :: d :: t =>
    if c = '$' ∧ (d = '$' ∨ d = '&' ∨ d = Char.ofNat 96 ∨ d = Char.ofNat 39) then false
    else noEscape (d :: t)

/-! ## Streaming result parser
(`parsePartialJson` in `src/unnamed/part_005`, lines 88-151; the variant in
`src/services/geminiService.ts` differs only in unescaping `correctedText`
via `JSON.parse` and omitting `summary`/`score`.) -/
/-- The backtick character (code 96). -/
def backtick : Char := Char.ofNat 96

/-- JS regex `\s` class membership (ASCII whitespace, NBSP, BOM). -/
def jsWs (c : Char) : Bool :=
  c = ' ' || c = '\t' || c = '\n' || c = '\r'
    || c = Char.ofNat 11 || c = Char.ofNat 12 || c = Char.ofNat 0xa0 || c = Char.ofNat 0xfeff

/-- The 7-character opening fence marker of a JSON code block. -/
def fenceOpen : List Char := [backtick, backtick, backtick, 'j', 's', 'o', 'n']

/-- Three backticks. -/
def fenceMark : List Char := [backtick, backtick, backtick]

/-- JS `.replace(/^` + "```" + `json\s*/, '')`. -/
def stripFenceOpen (s : List Char) : List Char :=
  if List.isPrefixOf fenceOpen s then (s.drop 7).dropWhile (fun c => jsWs c) else s

/-- JS `.replace(/\s*` + "```" + `$/, '')`: when the text ends with the fence,
remove it together with the maximal whitespace run directly before it
(the regex matches nothing otherwise, since `$` anchors the fence at the end). -/
def stripFenceClose (s : List Char) : List Char :=
  if List.isPrefixOf fenceMark s.reverse then
    ((s.reverse.drop 3).dropWhile (fun c => jsWs c)).reverse
  else s

/-- The markdown cleaning applied first by `parsePartialJson` and by the final
strict parse. -/
def cleanMarkdown (s : List Char) : List Char :=
  stripFenceClose (stripFenceOpen s)

/-- Try the pattern `"key"\s*:\s*` at the head of `s`; on success return the
remaining text. -/
def keyColonHere (key : List Char) (s : List Char) : Option (List Char) :=
  if List.isPrefixOf ('"' :: (key ++ ['"'])) s then
    match (s.drop (key.length + 2)).dropWhile (fun c => jsWs c) with
    | ':' :: r2 => some (r2.dropWhile (fun c => jsWs c))
    | _ => none
  else none

/-- Leftmost match of `"key"\s*:\s*"`; returns the text after the opening
quote (the regex engine moves one position on and retries when the colon or
quote fails to follow an occurrence of the key). -/
def findKeyQuote (key : List Char) : List Char → Option (List Char)
  | [] => none
  | s@(_ :: t) =>
    match keyColonHere key s with
    | some ('"' :: r2) => some r2
    | _ => findKeyQuote key t

/-- Leftmost match of `"key"\s*:\s*\[`; returns the text after the bracket. -/
def findKeyBracket (key : List Char) : List Char → Option (List Char)
  | [] => none
  | s@(_ :: t) =>
    match keyColonHere key s with
    | some ('[' :: r2) => some r2
    | _ => findKeyBracket key t

/-- Leftmost match of `"key"\s*:\s*(\d+)`; returns the digit run. -/
def findKeyDigits (key : List Char) : List Char → Option (List Char)
  | [] => none
  | s@(_ :: t) =>
    match keyColonHere key s with
    | some r =>
      let ds := r.takeWhile (fun c => c.isDigit)
      if ds ≠ [] then some ds else findKeyDigits key t
    | none => findKeyDigits key t

/-- The lazy capture `(.*?)(?:(?<!\\)"|$)`: characters up to the first quote
whose immediately preceding character is not a backslash (the naive lookbehind
of the source regex), or the end of input.  `prev` starts as the opening
quote. -/
def scanCapture : List Char → Char → List Char
  | [], _ => []
  | c :: rest, prev =>
    if c = '"' ∧ prev ≠ '\\' then []
    else c :: scanCapture rest c

/-- Drop a single trailing backslash (`rawText.endsWith('\\') &&
!rawText.endsWith('\\\\')`). -/
def trimTrailBackslash (r : List Char) : List Char :=
  match r.reverse with
  | c :: rest =>
    if c = '\\' ∧ rest.head? ≠ some '\\' then rest.reverse else r
  | [] => r

/-- One JS global replace of the two-character pattern `a b` by `rep`
(left-to-right, non-overlapping). -/
def replPairAll (a b : Char) (rep : List Char) : List Char → List Char
  | [] => []
  | [c] => [c]
  | c :: d :: t =>
    if c = a ∧ d = b then rep ++ replPairAll a b rep t
    else c :: replPairAll a b rep (d :: t)

/-- The sequential unescaping of `correctedText` in part_005 (lines 108-112):
`\"` then `\\` then `\n` then `\t`, each as a global replace. -/
def unescapeCorrected (r : List Char) : List Char :=
  replPairAll '\\' 't' ['\t']
    (replPairAll '\\' 'n' ['\n']
      (replPairAll '\\' '\\' ['\\']
        (replPairAll '\\' '"' ['"'] r)))

/-- Fuel-bounded scan for the matches of the global regex `{[^{}]+}`; any fuel
above the input length is sufficient (each step consumes at least one
character). -/
def findFlatObjectsGo : Nat → List Char → List (List Char)
  | 0, _ => []
  | _ + 1, [] => []
  | fuel + 1, c :: rest =>
    if c = '{' then
      let run := rest.takeWhile (fun x => x ≠ '{' ∧ x ≠ '}')
      match rest.drop run.length with
      | '}' :: tail =>
        if run ≠ [] then ('{' :: (run ++ ['}'])) :: findFlatObjectsGo fuel tail
        else findFlatObjectsGo fuel rest
      | _ => findFlatObjectsGo fuel rest
    else findFlatObjectsGo fuel rest

/-- The matches of the global regex `{[^{}]+}` (flat brace-balanced object
candidates), in order. -/
def findFlatObjects (s : List Char) : List (List Char) :=
  findFlatObjectsGo (s.length + 1) s

/-! ## JSON recognizer (model of `JSON.parse`) -/
/-- Parsed JSON values.  `JSON.parse` in the source is followed by an
unvalidated `as`-cast, so the value shape is kept generic. -/
inductive JVal where
  | jnull
  | jbool (b : Bool)
  | jnum (raw : List Char)
  | jstr (s : List Char)
  | jarr (items : List JVal)
  | jobj (fields : List (List Char × JVal))
deriving Repr

/-- JSON whitespace (space, tab, line feed, carriage return). -/
def jsonWs (c : Char) : Bool :=
  c = ' ' || c = '\t' || c = '\n' || c = '\r'

/-- Hexadecimal digit value. -/
def hexVal (c : Char) : Option Nat :=
  if '0' ≤ c ∧ c ≤ '9' then some (c.toNat - 48)
  else if 'a' ≤ c ∧ c ≤ 'f' then some (c.toNat - 87)
  else if 'A' ≤ c ∧ c ≤ 'F' then some (c.toNat - 55)
  else none

/-- JSON string body after the opening quote: content and remaining text. -/
def parseJStrGo : Nat → List Char → Option (List Char × List Char)
  | 0, _ => none
  | _, [] => none
  | fuel + 1, c :: rest =>
    if c = '"' then some ([], rest)
    else if c = '\\' then
      match rest with
      | [] => none
      | e :: rest2 =>
        let cont := fun (ch : Char) (r : List Char) =>
          (parseJStrGo fuel r).map (fun p => (ch :: p.1, p.2))
        if e = '"' then cont '"' rest2
        else if e = '\\' then cont '\\' rest2
        else if e = '/' then cont '/' rest2
        else if e = 'b' then cont (Char.ofNat 8) rest2
        else if e = 'f' then cont (Char.ofNat 12) rest2
        else if e = 'n' then cont '\n' rest2
        else if e = 'r' then cont '\r' rest2
        else if e = 't' then cont '\t' rest2
        else if e = 'u' then
          match rest2 with
          | h1 :: h2 :: h3 :: h4 :: rest3 =>
            match hexVal h1, hexVal h2, hexVal h3, hexVal h4 with
            | some v1, some v2, some v3, some v4 =>
              cont (Char.ofNat (((v1 * 16 + v2) * 16 + v3) * 16 + v4)) rest3
            | _, _, _, _ => none
          | _ => none
        else none
    else if c.toNat < 32 then none
    else (parseJStrGo fuel rest).map (fun p => (c :: p.1, p.2))

/-- JSON number: raw consumed characters and remaining text. -/
def parseJNum (s : List Char) : Option (List Char × List Char) :=
  let (sign, s1) := match s with
    | '-' :: t => (['-'], t)
    | _ => (([] : List Char), s)
  match s1 with
  | '0' :: t => some (sign ++ ['0'], t)
  | c :: _ =>
    if '1' ≤ c ∧ c ≤ '9' then
      some (sign ++ s1.takeWhile (fun d => d.isDigit), s1.dropWhile (fun d => d.isDigit))
    else none
  | [] => none

/-- JSON fractional part (possibly empty): raw characters and remaining text. -/
def parseJFrac (s : List Char) : Option (List Char × List Char) :=
  match s with
  | '.' :: t =>
    let ds := t.takeWhile (fun d => d.isDigit)
    if ds = [] then none else some ('.' :: ds, t.dropWhile (fun d => d.isDigit))
  | _ => some ([], s)

/-- JSON exponent part (possibly empty): raw characters and remaining text. -/
def parseJExp (s : List Char) : Option (List Char × List Char) :=
  match s with
  | c :: t =>
    if c = 'e' ∨ c = 'E' then
      let (sg, t2) := match t with
        | '+' :: u => (['+'], u)
        | '-' :: u => (['-'], u)
        | _ => (([] : List Char), t)
      let ds := t2.takeWhile (fun d => d.isDigit)
      if ds = [] then none
      else some (c :: (sg ++ ds), t2.dropWhile (fun d => d.isDigit))
    else some ([], s)
  | [] => some ([], s)

/-- Full JSON number with fraction and exponent. -/
def parseJNumber (s : List Char) : Option (List Char × List Char) :=
  (parseJNum s).bind (fun p1 =>
    (parseJFrac p1.2).bind (fun p2 =>
      (parseJExp p2.2).map (fun p3 => (p1.1 ++ p2.1 ++ p3.1, p3.2))))

mutual

/-- JSON value (fuel-bounded recursive descent). -/
def parseJVal : Nat → List Char → Option (JVal × List Char)
  | 0, _ => none
  | fuel + 1, s0 =>
    let s := s0.dropWhile (fun c => jsonWs c)
    match s with
    | '{' :: t =>
      match t.dropWhile (fun c => jsonWs c) with
      | '}' :: r => some (.jobj [], r)
      | _ => (parseJFields fuel t).map (fun p => (.jobj p.1, p.2))
    | '[' :: t =>
      match t.dropWhile (fun c => jsonWs c) with
      | ']' :: r => some (.jarr [], r)
      | _ => (parseJItems fuel t).map (fun p => (.jarr p.1, p.2))
    | '"' :: t => (parseJStrGo (t.length + 1) t).map (fun p => (.jstr p.1, p.2))
    | 't' :: r => if List.isPrefixOf ['r', 'u', 'e'] r then some (.jbool true, r.drop 3) else none
    | 'f' :: r => if List.isPrefixOf ['a', 'l', 's', 'e'] r then some (.jbool false, r.drop 4) else none
    | 'n' :: r => if List.isPrefixOf ['u', 'l', 'l'] r then some (.jnull, r.drop 3) else none
    | _ => (parseJNumber s).map (fun p => (.jnum p.1, p.2))

/-- Non-empty JSON array items (after the opening bracket). -/
def parseJItems : Nat → List Char → Option (List JVal × List Char)
  | 0, _ => none
  | fuel + 1, s =>
    (parseJVal fuel s).bind (fun p =>
      match p.2.dropWhile (fun c => jsonWs c) with
      | ',' :: r => (parseJItems fuel r).map (fun q => (p.1 :: q.1, q.2))
      | ']' :: r => some ([p.1], r)
      | _ => none)

/-- Non-empty JSON object fields (after the opening brace). -/
def parseJFields : Nat → List Char → Option (List (List Char × JVal) × List Char)
  | 0, _ => none
  | fuel + 1, s =>
    match s.dropWhile (fun c => jsonWs c) with
    | '"' :: t =>
      (parseJStrGo (t.length + 1) t).bind (fun pk =>
        match pk.2.dropWhile (fun c => jsonWs c) with
        | ':' :: r =>
          (parseJVal fuel r).bind (fun pv =>
            match pv.2.dropWhile (fun c => jsonWs c) with
            | ',' :: r2 => (parseJFields fuel r2).map (fun q => ((pk.1, pv.1) :: q.1, q.2))
            | '}' :: r2 => some ([(pk.1, pv.1)], r2)
            | _ => none)
        | _ => none)
    | _ => none

end

/-- Model of `JSON.parse`: accepts exactly the full well-formed JSON texts. -/
def jsonParse (s : List Char) : Option JVal :=
  match parseJVal (s.length + 1) s with
  | some (v, rest) => if rest.dropWhile (fun c => jsonWs c) = [] then some v else none
  | none => none

/-! ## `parsePartialJson` and the stream-completion recovery -/
/-- Field lookup on a parsed JSON object (duplicate keys: last wins, as in
`JSON.parse`). -/
def lookupField (v : JVal) (key : List Char) : Option JVal :=
  match v with
  | .jobj fields => (fields.reverse.find? (fun p => p.1 = key)).map (fun p => p.2)
  | _ => none

/-- A JSON number literal denotes zero exactly when its mantissa has no
non-zero digit. -/
def numNonZero (raw : List Char) : Bool :=
  (raw.takeWhile (fun c => c ≠ 'e' ∧ c ≠ 'E')).any (fun c => '1' ≤ c ∧ c ≤ '9')

/-- JS truthiness of an (optional) parsed JSON value. -/
def jsTruthy : Option JVal → Bool
  | none => false
  | some .jnull => false
  | some (.jbool b) => b
  | some (.jstr s) => decide (s ≠ [])
  | some (.jnum raw) => numNonZero raw
  | some (.jarr _) => true
  | some (.jobj _) => true

/-- Partial result record (`Partial<ProofreadResult>`) as produced by `parsePartialJson`: every field
independently absent until recoverable.  Issue objects are kept as the raw
parsed JSON values (the source pushes the parsed object unvalidated beyond the
truthiness of three fields). -/
structure ProofreadRec where
  correctedText : Option (List Char)
  issues : Option (List JVal)
  summary : Option (List Char)
  score : Option Nat
deriving Repr

/-- Value of `parseInt(_, 10)` on a digit run. -/
def digitsToNat (ds : List Char) : Nat :=
  ds.foldl (fun n c => n * 10 + (c.toNat - 48)) 0

/-- The tolerant parser `parsePartialJson` (part_005, lines 88-151): extraction of
`correctedText`, `issues`, `summary` and `score` from a possibly-truncated
serialized record. -/
def parsePartialJson (json : List Char) : ProofreadRec :=
  let cleanJson := cleanMarkdown json
  { correctedText :=
      (findKeyQuote "correctedText".data cleanJson).map (fun r =>
        unescapeCorrected (trimTrailBackslash (scanCapture r '"')))
    issues :=
      (findKeyBracket "issues".data cleanJson).map (fun content =>
        (findFlatObjects content).filterMap (fun objStr =>
          (jsonParse objStr).bind (fun v =>
            if jsTruthy (lookupField v "original".data)
                && jsTruthy (lookupField v "suggestion".data)
                && jsTruthy (lookupField v "type".data)
            then some v else none)))
    summary :=
      (findKeyQuote "summary".data cleanJson).map (fun r => scanCapture r '"')
    score :=
      (findKeyDigits "score".data cleanJson).map digitsToNat }

/-- JS truthiness of the extracted `correctedText` field. -/
def ctTruthy (p : ProofreadRec) : Bool :=
  match p.correctedText with
  | some l => decide (l ≠ [])
  | none => false

/-- Result of the stream-completion step: either the strict parse's value
(returned by the unvalidated `as ProofreadResult` cast) or a record
synthesized from the tolerant extraction. -/
inductive FinalOutcome where
  | strict (v : JVal)
  | recovered (correctedText : List Char) (issues : List JVal) (summary : List Char) (score : Nat)
deriving Repr

/-- The degraded recovery summary `"分析完成（部分数据可能丢失）"`. -/
def recoverSummaryMsg : List Char := "分析完成（部分数据可能丢失）".data

/-- The hard-failure message `"模型返回的不是有效的 JSON 格式"`. -/
def malformedMsg : List Char := "模型返回的不是有效的 JSON 格式".data

/-- The stream-completion step of `callOpenAICompatibleStream` (part_005,
lines 276-291): one strict `JSON.parse` of the cleaned accumulated text; on
failure, tolerant extraction, synthesizing a record whenever a non-empty
`correctedText` was extracted (`summary`/`score` fall back to the degraded
values when themselves falsy), and a thrown error otherwise. -/
def callOpenAICompatibleFinalize (fullText : List Char) : Except (List Char) FinalOutcome :=
  match jsonParse (cleanMarkdown fullText) with
  | some v => .ok (.strict v)
  | none =>
    let p := parsePartialJson fullText
    match p.correctedText with
    | some ct =>
      if ct ≠ [] then
        .ok (.recovered ct (p.issues.getD [])
          (match p.summary with
           | some s => if s = [] then recoverSummaryMsg else s
           | none => recoverSummaryMsg)
          (match p.score with
           | some sc => if sc = 0 then 80 else sc
           | none => 80))
      else .error malformedMsg
    | none => .error malformedMsg

/-- Whether the stream-completion step threw. -/
def isErr {ε α : Type} : Except ε α → Bool
  | .error _ => true
  | .ok _ => false

/-- The per-index condition under which the `getIssueIndex` scan passes over
index `k`. -/
def skipAt (issues : List Issue) (locations : List Loc) (resolved : List Nat)
    (filter : Filter) (s e : Int) (isAdded : Bool) (k : Nat) (hk : k < locations.length) : Prop :=
  k ∈ resolved ∨
    (match issues[k]? with
     | none => True
     | some chk =>
       filterExcludes filter chk.type = true ∨
         (if isAdded then ¬(locations[k].start ≤ s ∧ s ≤ locations[k].stop)
          else ¬(max s locations[k].start < min e locations[k].stop)))

/-- The accumulated stream text of scenario B (claim C6):
`{"correctedText":"修复完成","issues":[{"orig` (40 characters; the closing
quote of the literal `修复完成` is character 23). -/
def scenarioBText : List Char :=
  "\x7b\"correctedText\":\"修复完成\",\"issues\":[\x7b\"orig".data

theorem substrIdx_occAt {needle hay : List Char} {i : Nat}
    (h : substrIdx needle hay = some i) : List.isPrefixOf needle (hay.drop i) = true := by
  induction hay generalizing i with
  | nil =>
    unfold substrIdx at h
    by_cases hp : List.isPrefixOf needle ([] : List Char)
    · simp [hp] at h; subst h; simpa using hp
    · simp [hp] at h
  | cons c t ih =>
    unfold substrIdx at h
    by_cases hp : List.isPrefixOf needle (c :: t)
    · simp [hp] at h; subst h; simpa using hp
    · simp [hp] at h
      obtain ⟨j, hj, rfl⟩ := h
      simpa using ih hj

theorem substrIdx_pos_le {needle hay : List Char} {i : Nat}
    (h : substrIdx needle hay = some i) : i ≤ hay.length := by
  induction hay generalizing i with
  | nil =>
    unfold substrIdx at h
    by_cases hp : List.isPrefixOf needle ([] : List Char)
    · simp [hp] at h; omega
    · simp [hp] at h
  | cons c t ih =>
    unfold substrIdx at h
    by_cases hp : List.isPrefixOf needle (c :: t)
    · simp [hp] at h; omega
    · simp [hp] at h
      obtain ⟨j, hj, rfl⟩ := h
      have := ih hj
      simp only [List.length_cons]
      omega

theorem substrIdx_le_length {needle hay : List Char} {i : Nat}
    (h : substrIdx needle hay = some i) : i + needle.length ≤ hay.length := by
  have hp := substrIdx_occAt h
  rw [ List.isPrefixOf_iff_prefix] at hp
  have h1 := hp.length_le
  have h2 := substrIdx_pos_le h
  simp only [List.length_drop] at h1
  omega

theorem substrIdx_least {needle hay : List Char} {i : Nat}
    (h : substrIdx needle hay = some i) :
    ∀ q < i, ¬ List.isPrefixOf needle (hay.drop q) := by
  induction hay generalizing i with
  | nil =>
    unfold substrIdx at h
    by_cases hp : List.isPrefixOf needle ([] : List Char)
    · simp [hp] at h; omega
    · simp [hp] at h
  | cons c t ih =>
    unfold substrIdx at h
    by_cases hp : List.isPrefixOf needle (c :: t)
    · simp [hp] at h; omega
    · simp [hp] at h
      obtain ⟨j, hj, rfl⟩ := h
      intro q hq
      cases q with
      | zero => simpa using hp
      | succ q' =>
        have := ih hj q' (by omega)
        simpa using this

theorem substrIdx_drop_take {needle hay : List Char} {i : Nat}
    (h : substrIdx needle hay = some i) :
    (hay.drop i).take needle.length = needle := by
  have hp := substrIdx_occAt h
  rw [ List.isPrefixOf_iff_prefix] at hp
  obtain ⟨t, ht⟩ := hp
  rw [← ht]
  simp

theorem restA_consEq (c : Char) (l : List Change) : restA (consEq c l) = c :: restA l := by
  unfold consEq
  match l with
  | [] => simp [restA]
  | ⟨v, a, r⟩ :: t =>
    cases a <;> cases r <;> simp [restA]

theorem restA_consDel (c : Char) (l : List Change) : restA (consDel c l) = c :: restA l := by
  unfold consDel
  match l with
  | [] => simp [restA]
  | ⟨v, a, r⟩ :: t =>
    cases a <;> cases r <;> simp [restA]

theorem restA_consIns (c : Char) (l : List Change) : restA (consIns c l) = restA l := by
  unfold consIns
  match l with
  | [] => simp [restA]
  | ⟨v, a, r⟩ :: t =>
    cases a <;> cases r <;> simp [restA]

theorem restB_consEq (c : Char) (l : List Change) : restB (consEq c l) = c :: restB l := by
  unfold consEq
  match l with
  | [] => simp [restB]
  | ⟨v, a, r⟩ :: t =>
    cases a <;> cases r <;> simp [restB]

theorem restB_consDel (c : Char) (l : List Change) : restB (consDel c l) = restB l := by
  unfold consDel
  match l with
  | [] => simp [restB]
  | ⟨v, a, r⟩ :: t =>
    cases a <;> cases r <;> simp [restB]

theorem restB_consIns (c : Char) (l : List Change) : restB (consIns c l) = c :: restB l := by
  unfold consIns
  match l with
  | [] => simp [restB]
  | ⟨v, a, r⟩ :: t =>
    cases a <;> cases r <;> simp [restB]

theorem diffCharsGo_restA :
    ∀ (fuel : Nat) (a b : List Char), a.length + b.length < fuel →
      restA (diffCharsGo fuel a b) = a := by
  intro fuel
  induction fuel with
  | zero => intro a b h; omega
  | succ fuel ih =>
    intro a b h
    match a, b with
    | [], [] => simp [diffCharsGo, restA]
    | [], y :: ys => simp [diffCharsGo, restA]
    | x :: xs, [] => simp [diffCharsGo, restA]
    | x :: xs, y :: ys =>
      rw [diffCharsGo]
      by_cases heq : x = y
      · subst heq
        rw [if_pos rfl, restA_consEq, ih xs ys (by simp at h ⊢; omega)]
      · rw [if_neg heq]
        by_cases hle : lcsLen xs (y :: ys) ≥ lcsLen (x :: xs) ys
        · rw [if_pos hle, restA_consDel, ih xs (y :: ys) (by simp at h ⊢; omega)]
        · rw [if_neg hle, restA_consIns, ih (x :: xs) ys (by simp at h ⊢; omega)]

theorem diffCharsGo_restB :
    ∀ (fuel : Nat) (a b : List Char), a.length + b.length < fuel →
      restB (diffCharsGo fuel a b) = b := by
  intro fuel
  induction fuel with
  | zero => intro a b h; omega
  | succ fuel ih =>
    intro a b h
    match a, b with
    | [], [] => simp [diffCharsGo, restB]
    | [], y :: ys => simp [diffCharsGo, restB]
    | x :: xs, [] => simp [diffCharsGo, restB]
    | x :: xs, y :: ys =>
      rw [diffCharsGo]
      by_cases heq : x = y
      · subst heq
        rw [if_pos rfl, restB_consEq, ih xs ys (by simp at h ⊢; omega)]
      · rw [if_neg heq]
        by_cases hle : lcsLen xs (y :: ys) ≥ lcsLen (x :: xs) ys
        · rw [if_pos hle, restB_consDel, ih xs (y :: ys) (by simp at h ⊢; omega)]
        · rw [if_neg hle, restB_consIns, ih (x :: xs) ys (by simp at h ⊢; omega)]

theorem diffChars_restA (a b : List Char) : restA (diffChars a b) = a :=
  diffCharsGo_restA _ a b (by omega)

theorem diffChars_restB (a b : List Char) : restB (diffChars a b) = b :=
  diffCharsGo_restB _ a b (by omega)

theorem mem_consEq {d : Change} {c : Char} {l : List Change} (h : d ∈ consEq c l) :
    (d.added = false ∧ d.removed = false) ∨ d ∈ l := by
  unfold consEq at h
  match l, h with
  | [], h => simp at h; simp [h]
  | ⟨v, a, r⟩ :: t, h =>
    cases a <;> cases r <;> simp at h <;> rcases h with h | h <;>
      first
        | (left; rw [h]; exact ⟨rfl, rfl⟩)
        | (right; simp [h])
        | (right; rw [h]; simp)

theorem mem_consDel {d : Change} {c : Char} {l : List Change} (h : d ∈ consDel c l) :
    (d.added = false ∧ d.removed = true) ∨ d ∈ l := by
  unfold consDel at h
  match l, h with
  | [], h => simp at h; simp [h]
  | ⟨v, a, r⟩ :: t, h =>
    cases a <;> cases r <;> simp at h <;> rcases h with h | h <;>
      first
        | (left; rw [h]; exact ⟨rfl, rfl⟩)
        | (right; simp [h])
        | (right; rw [h]; simp)

theorem mem_consIns {d : Change} {c : Char} {l : List Change} (h : d ∈ consIns c l) :
    (d.added = true ∧ d.removed = false) ∨ d ∈ l := by
  unfold consIns at h
  match l, h with
  | [], h => simp at h; simp [h]
  | ⟨v, a, r⟩ :: t, h =>
    cases a <;> cases r <;> simp at h <;> rcases h with h | h <;>
      first
        | (left; rw [h]; exact ⟨rfl, rfl⟩)
        | (right; simp [h])
        | (right; rw [h]; simp)

theorem diffCharsGo_not_both :
    ∀ (fuel : Nat) (a b : List Char),
      ∀ d ∈ diffCharsGo fuel a b, ¬(d.added = true ∧ d.removed = true) := by
  intro fuel
  induction fuel with
  | zero => intro a b; simp [diffCharsGo]
  | succ fuel ih =>
    intro a b
    match a, b with
    | [], [] => simp [diffCharsGo]
    | [], y :: ys => simp [diffCharsGo]
    | x :: xs, [] => simp [diffCharsGo]
    | x :: xs, y :: ys =>
      rw [diffCharsGo]
      by_cases heq : x = y
      · subst heq
        rw [if_pos rfl]
        intro d hd
        rcases mem_consEq hd with ⟨h1, h2⟩ | h
        · simp [h1, h2]
        · exact ih xs ys d h
      · rw [if_neg heq]
        by_cases hle : lcsLen xs (y :: ys) ≥ lcsLen (x :: xs) ys
        · rw [if_pos hle]
          intro d hd
          rcases mem_consDel hd with ⟨h1, h2⟩ | h
          · simp [h1, h2]
          · exact ih xs (y :: ys) d h
        · rw [if_neg hle]
          intro d hd
          rcases mem_consIns hd with ⟨h1, h2⟩ | h
          · simp [h1, h2]
          · exact ih (x :: xs) ys d h

/-- No op of the diff is simultaneously an insert and a delete. -/
theorem diffChars_not_both (a b : List Char) :
    ∀ d ∈ diffChars a b, ¬(d.added = true ∧ d.removed = true) :=
  diffCharsGo_not_both _ a b

theorem locateFromBlocksB_proj (blocks : List Block) :
    ∀ (issues : List Issue) (cursor : Nat),
      (locateFromBlocksB blocks cursor issues).map projLoc = locateFromBlocks blocks cursor issues := by
  intro issues
  induction issues with
  | nil => intro cursor; simp [locateFromBlocksB, locateFromBlocks]
  | cons iss rest ih =>
    intro cursor
    rw [locateFromBlocksB, locateFromBlocks]
    match h : scanFrom blocks iss cursor with
    | some (i, b) => simp [projLoc, ih]
    | none => simp [projLoc, ih]

theorem issueLocationsB_proj (o c : List Char) (issues : List Issue) :
    (issueLocationsB o c issues).map projLoc = issueLocations o c issues := by
  unfold issueLocationsB issueLocations
  by_cases h : o = [] <;> simp [h, locateFromBlocksB_proj]

theorem blocksOK_mono {orig : List Char} {l : List Block} {lo hi : Nat}
    (h : BlocksOK orig hi l) (hle : lo ≤ hi) : BlocksOK orig lo l := by
  match l with
  | [] => trivial
  | b :: rest =>
    obtain ⟨h1, h2⟩ := h
    exact ⟨by omega, h2⟩

theorem buildBlocksAux_cons (c : Change) (rest : List Change) (cur : Option Block) (oIdx : Nat) :
    buildBlocksAux (c :: rest) cur oIdx =
      (if c.added || c.removed then
        let b0 := cur.getD ⟨oIdx, oIdx, [], []⟩
        let b1 := if c.removed then { b0 with origText := b0.origText ++ c.value, origEnd := b0.origEnd + c.value.length } else b0
        let b2 := if c.added then { b1 with corrText := b1.corrText ++ c.value } else b1
        buildBlocksAux rest (some b2) (if c.removed then oIdx + c.value.length else oIdx)
      else
        match cur with
        | some b => b :: buildBlocksAux rest none (oIdx + c.value.length)
        | none => buildBlocksAux rest none (oIdx + c.value.length)) := rfl

theorem buildBlocksAux_ok (orig : List Char) :
    ∀ (changes : List Change) (cur : Option Block) (oIdx : Nat),
      (∀ d ∈ changes, ¬(d.added = true ∧ d.removed = true)) →
      restA changes = orig.drop oIdx →
      oIdx ≤ orig.length →
      (∀ b, cur = some b → b.origEnd = oIdx ∧
        b.origEnd = b.origStart + b.origText.length ∧
        (orig.drop b.origStart).take b.origText.length = b.origText ∧
        b.origStart ≤ oIdx) →
      BlocksOK orig (match cur with | some b => b.origStart | none => oIdx)
        (buildBlocksAux changes cur oIdx) := by
  intro changes
  induction changes with
  | nil =>
    intro cur oIdx _ _ hlen hcur
    match cur with
    | none => trivial
    | some b =>
      obtain ⟨he, hs, hsl, _⟩ := hcur b rfl
      exact ⟨le_refl _, hs, by omega, hsl, trivial⟩
  | cons c rest ih =>
    intro cur oIdx hnb hra hlen hcur
    have hnbr : ∀ d ∈ rest, ¬(d.added = true ∧ d.removed = true) := by
      intro d hd; exact hnb d (List.mem_cons_of_mem _ hd)
    rw [buildBlocksAux_cons]
    cases hca : c.added with
    | true =>
      cases hcr : c.removed with
      | true => exact absurd ⟨hca, hcr⟩ (hnb c (List.mem_cons_self _ _))
      | false =>
        -- pure insert: original cursor unchanged
        have hra' : restA rest = orig.drop oIdx := by
          rw [restA, hca] at hra
          simpa using hra
        simp only [hca, hcr, Bool.true_or, if_true, Bool.false_eq_true, if_false, if_true]
        match cur with
        | none =>
          have := ih (some ⟨oIdx, oIdx, [], [] ++ c.value⟩) oIdx hnbr hra' hlen
            (by
              intro b hb; injection hb with hb; rw [← hb]
              refine ⟨rfl, by simp, by simp, le_refl _⟩)
          simpa [Option.getD] using this
        | some b =>
          obtain ⟨he, hs, hsl, hst⟩ := hcur b rfl
          have := ih (some ⟨b.origStart, b.origEnd, b.origText, b.corrText ++ c.value⟩) oIdx
            hnbr hra' hlen
            (by
              intro b' hb; injection hb with hb; rw [← hb]
              exact ⟨he, hs, hsl, hst⟩)
          simpa [Option.getD] using this
    | false =>
      cases hcr : c.removed with
      | true =>
        -- delete: the op's value is consumed original text
        rw [restA, hca] at hra
        simp only [Bool.false_eq_true, if_false] at hra
        have hval : c.value = (orig.drop oIdx).take c.value.length := by
          have h1 := congrArg (List.take c.value.length) hra
          rw [List.take_append_of_le_length (le_refl _)] at h1
          simpa using h1
        have hrest : restA rest = orig.drop (oIdx + c.value.length) := by
          have h1 := congrArg (List.drop c.value.length) hra
          rw [List.drop_append_of_le_length (le_refl _)] at h1
          simp only [List.drop_length, List.nil_append, List.drop_drop] at h1
          exact h1
        have hlen2 : oIdx + c.value.length ≤ orig.length := by
          have h1 := congrArg List.length hra
          simp only [List.length_append, List.length_drop] at h1
          omega
        simp only [hca, hcr, Bool.or_true, if_true, Bool.false_eq_true, if_false]
        match cur with
        | none =>
          have := ih (some ⟨oIdx, oIdx + c.value.length, [] ++ c.value, []⟩)
            (oIdx + c.value.length) hnbr hrest hlen2
            (by
              intro b hb; injection hb with hb; rw [← hb]
              refine ⟨rfl, by simp, ?_, Nat.le_add_right oIdx c.value.length⟩
              simp only [List.nil_append]
              exact hval.symm)
          simpa [Option.getD] using this
        | some b =>
          obtain ⟨he, hs, hsl, hst⟩ := hcur b rfl
          have := ih (some ⟨b.origStart, b.origEnd + c.value.length,
              b.origText ++ c.value, b.corrText⟩) (oIdx + c.value.length) hnbr hrest hlen2
            (by
              intro b' hb; injection hb with hb; rw [← hb]
              refine ⟨by simp only; omega, by simp only [List.length_append]; omega, ?_, by simp only; omega⟩
              simp only [List.length_append]
              rw [List.take_add, hsl]
              congr 1
              have hba : b.origStart + b.origText.length = oIdx := by omega
              rw [List.drop_drop, hba]
              exact hval.symm)
          simpa [Option.getD] using this
      | false =>
        -- equal: flush pending block, advance cursor
        rw [restA, hca] at hra
        simp only [Bool.false_eq_true, if_false] at hra
        have hrest : restA rest = orig.drop (oIdx + c.value.length) := by
          have h1 := congrArg (List.drop c.value.length) hra
          rw [List.drop_append_of_le_length (le_refl _)] at h1
          simp only [List.drop_length, List.nil_append, List.drop_drop] at h1
          exact h1
        have hlen2 : oIdx + c.value.length ≤ orig.length := by
          have h1 := congrArg List.length hra
          simp only [List.length_append, List.length_drop] at h1
          omega
        simp only [hca, hcr, Bool.or_self, Bool.false_eq_true, if_false]
        have hnext := ih none (oIdx + c.value.length) hnbr hrest hlen2
          (by intro b hb; cases hb)
        simp only at hnext
        match cur with
        | none => exact blocksOK_mono hnext (by simp)
        | some b =>
          obtain ⟨he, hs, hsl, hst⟩ := hcur b rfl
          exact ⟨le_refl _, hs, by omega, hsl, blocksOK_mono hnext (by omega)⟩

/-- The blocks built from a diff of `orig` against any other text are
well-formed over `orig`. -/
theorem buildBlocks_ok (orig corr : List Char) :
    BlocksOK orig 0 (buildBlocks (diffChars orig corr)) := by
  have := buildBlocksAux_ok orig (diffChars orig corr) none 0
    (diffChars_not_both orig corr) (by simpa using diffChars_restA orig corr)
    (by omega) (by intro b hb; cases hb)
  simpa using this

theorem blocksOK_get {orig : List Char} :
    ∀ {blocks : List Block} {lo : Nat}, BlocksOK orig lo blocks →
      ∀ i (hi : i < blocks.length),
        lo ≤ blocks[i].origStart ∧
        blocks[i].origEnd = blocks[i].origStart + blocks[i].origText.length ∧
        blocks[i].origEnd ≤ orig.length ∧
        (orig.drop blocks[i].origStart).take blocks[i].origText.length = blocks[i].origText := by
  intro blocks
  induction blocks with
  | nil => intro lo _ i hi; simp at hi
  | cons b rest ih =>
    intro lo h i hi
    obtain ⟨h1, h2, h3, h4, h5⟩ := h
    match i with
    | 0 => exact ⟨h1, h2, h3, h4⟩
    | Nat.succ i =>
      have hr := ih h5 i (by simpa using hi)
      refine ⟨?_, hr.2⟩
      have := hr.1
      simp only [List.getElem_cons_succ] at *
      omega

theorem blocksOK_ordered {orig : List Char} :
    ∀ {blocks : List Block} {lo : Nat}, BlocksOK orig lo blocks →
      ∀ i j (hi : i < blocks.length) (hj : j < blocks.length), i < j →
        blocks[i].origEnd ≤ blocks[j].origStart := by
  intro blocks
  induction blocks with
  | nil => intro lo _ i j hi; simp at hi
  | cons b rest ih =>
    intro lo h i j hi hj hij
    obtain ⟨h1, h2, h3, h4, h5⟩ := h
    match i, j with
    | 0, Nat.succ j =>
      have := (blocksOK_get h5 j (by simpa using hj)).1
      simpa using this
    | Nat.succ i, Nat.succ j =>
      have := ih h5 i j (by simpa using hi) (by simpa using hj) (by omega)
      simpa using this

theorem scanFromAux_some {iss : Issue} :
    ∀ {l : List Block} {i j : Nat} {b : Block}, scanFromAux iss l i = some (j, b) →
      ∃ k, j = i + k ∧ ∃ hk : k < l.length, l[k] = b ∧ matchBlock iss b = true := by
  intro l
  induction l with
  | nil => intro i j b h; cases h
  | cons x rest ih =>
    intro i j b h
    rw [scanFromAux] at h
    by_cases hm : matchBlock iss x = true
    · rw [if_pos hm] at h
      injection h with h
      injection h with h1 h2
      subst h1; subst h2
      exact ⟨0, by omega, by simp, by simp, hm⟩
    · rw [if_neg hm] at h
      obtain ⟨k, hk1, hk2, hk3, hk4⟩ := ih h
      exact ⟨k + 1, by omega, by simp; omega, by simpa using hk3, hk4⟩

theorem scanFromAux_none {iss : Issue} :
    ∀ {l : List Block} {i : Nat}, scanFromAux iss l i = none →
      ∀ k, ∀ hk : k < l.length, matchBlock iss l[k] = false := by
  intro l
  induction l with
  | nil => intro i _ k hk; simp at hk
  | cons x rest ih =>
    intro i h k hk
    rw [scanFromAux] at h
    by_cases hm : matchBlock iss x = true
    · rw [if_pos hm] at h; cases h
    · rw [if_neg hm] at h
      match k with
      | 0 => simpa using hm
      | Nat.succ k => simpa using ih h k (by simpa using hk)

theorem scanFromAux_least {iss : Issue} :
    ∀ {l : List Block} {i j : Nat} {b : Block}, scanFromAux iss l i = some (j, b) →
      ∀ k, k < j - i → ∀ hk : k < l.length, matchBlock iss l[k] = false := by
  intro l
  induction l with
  | nil => intro i j b h; cases h
  | cons x rest ih =>
    intro i j b h k hkj hk
    rw [scanFromAux] at h
    by_cases hm : matchBlock iss x = true
    · rw [if_pos hm] at h
      injection h with h
      injection h with h1 h2
      subst h1
      omega
    · rw [if_neg hm] at h
      match k with
      | 0 => simpa using hm
      | Nat.succ k =>
        have hij : i + 1 ≤ j := by
          obtain ⟨k', hk', _⟩ := scanFromAux_some h
          omega
        simpa using ih h k (by omega) (by simpa using hk)

theorem scanFrom_some {blocks : List Block} {iss : Issue} {i j : Nat} {b : Block}
    (h : scanFrom blocks iss i = some (j, b)) :
    i ≤ j ∧ ∃ hj : j < blocks.length, blocks[j] = b ∧ matchBlock iss b = true := by
  unfold scanFrom at h
  obtain ⟨k, hk1, hk2, hk3, hk4⟩ := scanFromAux_some h
  simp only [List.length_drop] at hk2
  have hj : j < blocks.length := by omega
  refine ⟨by omega, hj, ?_, hk4⟩
  subst hk1
  rw [← hk3, List.getElem_drop]

theorem scanFrom_none_no_match {blocks : List Block} {iss : Issue} {i : Nat}
    (h : scanFrom blocks iss i = none) :
    ∀ k, i ≤ k → ∀ hk : k < blocks.length, matchBlock iss blocks[k] = false := by
  unfold scanFrom at h
  intro k hik hk
  have hd : k - i < (blocks.drop i).length := by
    simp only [List.length_drop]; omega
  have := scanFromAux_none h (k - i) hd
  simp only [List.getElem_drop] at this
  have hi : i + (k - i) = k := by omega
  simp only [hi] at this
  exact this

theorem scanFrom_some_least {blocks : List Block} {iss : Issue} {i j : Nat} {b : Block}
    (h : scanFrom blocks iss i = some (j, b)) :
    ∀ k, i ≤ k → k < j → ∀ hk : k < blocks.length, matchBlock iss blocks[k] = false := by
  unfold scanFrom at h
  intro k hik hkj hk
  have hd : k - i < (blocks.drop i).length := by
    simp only [List.length_drop]; omega
  have := scanFromAux_least h (k - i) (by omega) hd
  simp only [List.getElem_drop] at this
  have hi : i + (k - i) = k := by omega
  simp only [hi] at this
  exact this

theorem locResult_span {iss : Issue} {b : Block}
    (hend : b.origEnd = b.origStart + b.origText.length) :
    (b.origStart : Int) ≤ (locResult iss b).start ∧
    (locResult iss b).start ≤ (locResult iss b).stop ∧
    (locResult iss b).stop ≤ (b.origEnd : Int) := by
  unfold locResult
  by_cases h : iss.original ≠ []
  · rw [if_pos h]
    match hoff : substrIdx iss.original b.origText with
    | some off =>
      have hlen := substrIdx_le_length hoff
      simp only
      refine ⟨by push_cast; omega, by push_cast; omega, by push_cast; omega⟩
    | none =>
      simp only
      refine ⟨le_refl _, le_refl _, by push_cast; omega⟩
  · rw [if_neg h]
    refine ⟨le_refl _, le_refl _, by push_cast; omega⟩

theorem locateB_entriesOK {orig : List Char} {blocks : List Block} {lo : Nat}
    (hok : BlocksOK orig lo blocks) :
    ∀ (issues : List Issue) (cursor : Nat),
      EntriesOK blocks cursor (locateFromBlocksB blocks cursor issues) := by
  intro issues
  induction issues with
  | nil => intro cursor; trivial
  | cons iss rest ih =>
    intro cursor
    rw [locateFromBlocksB]
    match h : scanFrom blocks iss cursor with
    | some (i, b) =>
      obtain ⟨hci, hj, hbeq, hm⟩ := scanFrom_some h
      refine ⟨⟨hci, hj, ?_⟩, ih i⟩
      have hend := (blocksOK_get hok i hj).2.1
      rw [hbeq] at hend ⊢
      exact locResult_span hend
    | none => exact ih cursor

theorem entriesOK_entry {blocks : List Block} :
    ∀ {l : List (Option (Nat × Loc))} {cursor : Nat}, EntriesOK blocks cursor l →
      ∀ (j : Nat) (e : Nat × Loc), l[j]? = some (some e) → EntryOK blocks cursor e := by
  intro l
  induction l with
  | nil => intro cursor _ j e hj; simp at hj
  | cons x rest ih =>
    intro cursor h j e hj
    match x, h with
    | none, h =>
      match j, hj with
      | 0, hj => simp at hj
      | Nat.succ j, hj => exact ih h j e (by simpa using hj)
    | some e0, h =>
      match j, hj with
      | 0, hj =>
        simp at hj
        subst hj
        exact h.1
      | Nat.succ j, hj =>
        have := ih h.2 j e (by simpa using hj)
        exact ⟨le_trans h.1.1 this.1, this.2⟩

theorem entriesOK_pairwise {blocks : List Block} :
    ∀ {l : List (Option (Nat × Loc))} {cursor : Nat}, EntriesOK blocks cursor l →
      ∀ (i j : Nat) (ei ej : Nat × Loc), i < j → l[i]? = some (some ei) → l[j]? = some (some ej) →
        ei.1 ≤ ej.1 := by
  intro l
  induction l with
  | nil => intro cursor _ i j ei ej _ hi; simp at hi
  | cons x rest ih =>
    intro cursor h i j ei ej hij hi hj
    match x, h with
    | none, h =>
      match i, j, hi, hj with
      | 0, _, hi, _ => simp at hi
      | Nat.succ i, 0, _, hj => simp at hj
      | Nat.succ i, Nat.succ j, hi, hj =>
        exact ih h i j ei ej (by omega) (by simpa using hi) (by simpa using hj)
    | some e0, h =>
      match i, j, hi, hj with
      | 0, 0, hi, hj => omega
      | 0, Nat.succ j, hi, hj =>
        simp at hi
        subst hi
        exact (entriesOK_entry h.2 j ej (by simpa using hj)).1
      | Nat.succ i, 0, hi, hj => omega
      | Nat.succ i, Nat.succ j, hi, hj =>
        exact ih h.2 i j ei ej (by omega) (by simpa using hi) (by simpa using hj)

/-- C3 (amended): as stated the invariant fails (see `C3_counterexample`) —
two issues matched inside the same diff block may get overlapping,
out-of-order ranges.  What holds: the assigned block index is monotone
non-decreasing in processing order, every located range sits inside its
block's span, and ranges assigned to *distinct* blocks are non-overlapping
with non-decreasing starts.  The first conjunct ties the instrumented locator
to the source's `issueLocations`. -/
theorem issueLocationsB_invariant (o c : List Char) (issues : List Issue) :
    (issueLocationsB o c issues).map projLoc = issueLocations o c issues ∧
    (∀ (i j : Nat) (ei ej : Nat × Loc), i < j →
      (issueLocationsB o c issues)[i]? = some (some ei) →
      (issueLocationsB o c issues)[j]? = some (some ej) →
      ei.1 ≤ ej.1 ∧ ei.2.start ≤ ei.2.stop ∧
      (ei.1 < ej.1 → ei.2.stop ≤ ej.2.start)) := by
  refine ⟨issueLocationsB_proj o c issues, ?_⟩
  intro i j ei ej hij hi hj
  unfold issueLocationsB at hi hj
  by_cases ho : o = []
  · rw [if_pos ho] at hi; simp at hi
  · rw [if_neg ho] at hi hj
    have hok := buildBlocks_ok o c
    have hE := locateB_entriesOK hok issues 0
    have hmono := entriesOK_pairwise hE i j ei ej hij hi hj
    have hEi := entriesOK_entry hE i ei hi
    have hEj := entriesOK_entry hE j ej hj
    obtain ⟨-, hbi, hsi1, hsi2, hsi3⟩ := hEi
    obtain ⟨-, hbj, hsj1, hsj2, hsj3⟩ := hEj
    refine ⟨hmono, hsi2, ?_⟩
    intro hlt
    have hord := blocksOK_ordered hok ei.1 ej.1 hbi hbj hlt
    calc ei.2.stop ≤ _ := hsi3
      _ ≤ _ := by exact_mod_cast hord
      _ ≤ ej.2.start := hsj1

/-! ## The claim-side locator (C2 wording) -/
theorem substrIdx_none_no_occ {needle hay : List Char}
    (h : substrIdx needle hay = none) :
    ∀ i, ¬ List.isPrefixOf needle (hay.drop i) = true := by
  induction hay with
  | nil =>
    unfold substrIdx at h
    by_cases hp : List.isPrefixOf needle ([] : List Char)
    · simp [hp] at h
    · intro i; simpa using hp
  | cons c t ih =>
    unfold substrIdx at h
    by_cases hp : List.isPrefixOf needle (c :: t)
    · simp [hp] at h
    · simp [hp] at h
      intro i
      match i with
      | 0 => simpa using hp
      | Nat.succ i => simpa using ih h i

theorem substrIdx_isSome_iff_contains {needle hay : List Char} :
    (substrIdx needle hay).isSome = true ↔ needle <:+: hay := by
  constructor
  · intro h
    match hidx : substrIdx needle hay with
    | none => rw [hidx] at h; simp at h
    | some i =>
      have hp := substrIdx_occAt hidx
      rw [ List.isPrefixOf_iff_prefix] at hp
      exact List.IsInfix.trans ( List.IsPrefix.isInfix hp)
        ( List.IsSuffix.isInfix ( List.drop_suffix i hay))
  · intro h
    obtain ⟨s, t, hst⟩ := h
    match hidx : substrIdx needle hay with
    | some i => simp
    | none =>
      exfalso
      refine substrIdx_none_no_occ hidx s.length ?_
      rw [ List.isPrefixOf_iff_prefix, ← hst]
      rw [List.append_assoc, List.drop_left]
      exact ⟨t, rfl⟩

theorem specMatches_eq_matchBlock (iss : Issue) (b : Block) :
    specMatches iss b = matchBlock iss b := by
  unfold specMatches matchBlock
  have h1 : decide (iss.original <:+: b.origText) = (substrIdx iss.original b.origText).isSome := by
    by_cases h : iss.original <:+: b.origText
    · simp [h, substrIdx_isSome_iff_contains.mpr h]
    · have hs : (substrIdx iss.original b.origText).isSome = false := by
        rw [Bool.eq_false_iff]
        intro hsome
        exact h (substrIdx_isSome_iff_contains.mp hsome)
      simp [h, hs]
  have h2 : decide (iss.suggestion <:+: b.corrText) = (substrIdx iss.suggestion b.corrText).isSome := by
    by_cases h : iss.suggestion <:+: b.corrText
    · simp [h, substrIdx_isSome_iff_contains.mpr h]
    · have hs : (substrIdx iss.suggestion b.corrText).isSome = false := by
        rw [Bool.eq_false_iff]
        intro hsome
        exact h (substrIdx_isSome_iff_contains.mp hsome)
      simp [h, hs]
  rw [h1, h2]

theorem specFirstMatch_eq_scanFrom (blocks : List Block) (iss : Issue) (cursor : Nat) :
    specFirstMatch blocks cursor iss = (scanFrom blocks iss cursor).map Prod.fst := by
  match h : scanFrom blocks iss cursor with
  | some (j, b) =>
    obtain ⟨hcj, hj, hbeq, hm⟩ := scanFrom_some h
    unfold specFirstMatch
    rw [Option.map_some', List.find?_range'_eq_some]
    refine ⟨?_, ?_, ?_⟩
    · rw [specMatches_eq_matchBlock]
      rw [List.getD_eq_getElem _ _ hj, hbeq]
      exact hm
    · rw [List.mem_range'_1]
      omega
    · intro k hk1 hk2
      have hklen : k < blocks.length := by omega
      rw [specMatches_eq_matchBlock]
      rw [List.getD_eq_getElem _ _ hklen]
      rw [scanFrom_some_least h k hk1 hk2 hklen]
      rfl
  | none =>
    unfold specFirstMatch
    rw [Option.map_none']
    rw [List.find?_eq_none]
    intro x hx
    rw [List.mem_range'_1] at hx
    have hxlen : x < blocks.length := by omega
    rw [specMatches_eq_matchBlock]
    rw [List.getD_eq_getElem _ _ hxlen]
    simp [scanFrom_none_no_match h x (by omega) hxlen]

theorem specAssign_eq_locResult (iss : Issue) (b : Block) :
    specAssign iss b = locResult iss b := by
  unfold specAssign locResult
  by_cases h : iss.original ≠ []
  · rw [if_pos h, if_pos h]
  · rw [if_neg h, if_neg h]

theorem specLocate_eq_locateFromBlocks (blocks : List Block) :
    ∀ (issues : List Issue) (cursor : Nat),
      specLocate blocks cursor issues = locateFromBlocks blocks cursor issues := by
  intro issues
  induction issues with
  | nil => intro cursor; rfl
  | cons iss rest ih =>
    intro cursor
    rw [specLocate, locateFromBlocks, specFirstMatch_eq_scanFrom]
    match h : scanFrom blocks iss cursor with
    | some (j, b) =>
      obtain ⟨hcj, hj, hbeq, hm⟩ := scanFrom_some h
      simp only [Option.map_some']
      rw [ih, specAssign_eq_locResult]
      rw [List.getD_eq_getElem _ _ hj, hbeq]
    | none =>
      simp only [Option.map_none']
      rw [ih]

theorem partsText_append (l1 l2 : List RenderPart) :
    partsText (l1 ++ l2) = partsText l1 ++ partsText l2 := by
  induction l1 with
  | nil => simp [partsText]
  | cons p t ih => simp [partsText, ih]

theorem split3_text (v : List Char) (i s : Nat) :
    v.take i ++ ((v.drop i).take s ++ (if i + s < v.length then v.drop (i + s) else [])) = v := by
  by_cases h : i + s < v.length
  · rw [if_pos h]
    conv_rhs => rw [← List.take_append_drop i v]
    congr 1
    conv_rhs => rw [← List.take_append_drop s (v.drop i)]
    congr 1
    rw [List.drop_drop]
  · rw [if_neg h]
    have h2 : (v.drop i).take s = v.drop i := by
      apply List.take_of_length_le
      simp only [List.length_drop]
      omega
    rw [h2]
    simp [List.take_append_drop]

theorem opParts_text (issues : List Issue) (locations : List Loc) (resolved : List Nat)
    (filter : Filter) (sel : Option Nat) (issue : Option Issue) (target : Option Loc)
    (d : Change) (oIdx : Nat) :
    partsText (opParts issues locations resolved filter sel issue target d oIdx) =
      (if d.removed then [] else d.value) := by
  unfold opParts
  by_cases heq : d.added = false ∧ d.removed = false
  · rw [if_pos heq]
    simp [partsText, heq.2]
  · rw [if_neg heq]
    by_cases hrm : d.removed = true
    · rw [if_pos hrm]
      simp only [hrm, if_true]
      match target with
      | none => simp [partsText, hrm]
      | some t =>
        simp only
        split
        · rw [partsText_append, partsText_append]
          split <;> split <;> simp [partsText, hrm]
        · simp [partsText, hrm]
    · rw [if_neg hrm]
      have hrm' : d.removed = false := by
        revert hrm
        cases d.removed <;> simp
      simp only [hrm', Bool.false_eq_true, if_false]
      match target with
      | none => simp [partsText, hrm']
      | some t =>
        simp only
        split
        · match issue with
          | none => simp [partsText, hrm']
          | some iss =>
            simp only
            by_cases hsug : iss.suggestion ≠ []
            · rw [if_pos hsug]
              match hidx : substrIdx iss.suggestion d.value with
              | none => simp [partsText, hrm']
              | some idx =>
                simp only [Option.map_some', Option.getD_some]
                rw [partsText_append, partsText_append]
                have hcover := split3_text d.value idx iss.suggestion.length
                by_cases hpost : idx + iss.suggestion.length < d.value.length
                · rw [if_pos hpost] at hcover
                  split <;> simp_all [partsText, hrm']
                · rw [if_neg hpost] at hcover
                  split <;> simp_all [partsText, hrm']
            · rw [if_neg hsug]
              simp [partsText, hrm']
        · simp [partsText, hrm']

theorem processOps_text (issues : List Issue) (locations : List Loc) (resolved : List Nat)
    (filter : Filter) (sel : Option Nat) (issue : Option Issue) (target : Option Loc) :
    ∀ (ops : List Change) (oIdx : Nat),
      partsText (processOps issues locations resolved filter sel issue target ops oIdx) =
        restB ops := by
  intro ops
  induction ops with
  | nil => intro oIdx; simp [processOps, partsText, restB]
  | cons d rest ih =>
    intro oIdx
    rw [processOps, restB, partsText_append, opParts_text, ih]

theorem processedDiffs_text (originalText currentText : List Char) (issues : List Issue)
    (locations : List Loc) (sel : Option Nat) (resolved : List Nat) (filter : Filter) :
    partsText (processedDiffs originalText currentText issues locations sel resolved filter) =
      currentText := by
  unfold processedDiffs
  by_cases ho : originalText ≠ []
  · rw [if_pos ho]
    rw [processOps_text, diffChars_restB]
  · rw [if_neg ho]
    rw [processOps_text]
    simp [restB]

theorem noEscape_dollarSubst {r : List Char} (h : noEscape r = true) (m b a : List Char) :
    dollarSubst m b a r = r := by
  induction r using noEscape.induct with
  | case1 => rfl
  | case2 c => rfl
  | case3 c d t hcd =>
    rw [noEscape, if_pos hcd] at h
    cases h
  | case4 c d t hcd ih =>
    rw [noEscape, if_neg hcd] at h
    rw [dollarSubst]
    by_cases hc : c = '$'
    · rw [if_pos hc]
      subst hc
      have hd1 : ¬ d = '$' := fun hh => hcd ⟨rfl, Or.inl hh⟩
      have hd2 : ¬ d = '&' := fun hh => hcd ⟨rfl, Or.inr (Or.inl hh)⟩
      have hd3 : ¬ d = Char.ofNat 96 := fun hh => hcd ⟨rfl, Or.inr (Or.inr (Or.inl hh))⟩
      have hd4 : ¬ d = Char.ofNat 39 := fun hh => hcd ⟨rfl, Or.inr (Or.inr (Or.inr hh))⟩
      rw [if_neg hd1, if_neg hd2, if_neg hd3, if_neg hd4, ih h]
    · rw [if_neg hc, ih h]

theorem jsReplace_not_found {pat rep s : List Char} (h : substrIdx pat s = none) :
    jsReplace pat rep s = s := by
  unfold jsReplace
  rw [h]

theorem jsReplace_found {pat rep s : List Char} {i : Nat}
    (hidx : substrIdx pat s = some i) (hne : noEscape rep = true) :
    jsReplace pat rep s = s.take i ++ rep ++ s.drop (i + pat.length) := by
  unfold jsReplace
  rw [hidx]
  show s.take i ++ dollarSubst pat (s.take i) (s.drop (i + pat.length)) rep
      ++ s.drop (i + pat.length) = _
  rw [noEscape_dollarSubst hne]

theorem replaced_take {s A B : List Char} {i : Nat} (hi : i ≤ s.length) :
    (s.take i ++ A ++ B).take i = s.take i := by
  rw [List.append_assoc, List.take_append_of_le_length (by simp; omega)]
  rw [List.take_take]
  simp

theorem replaced_drop {s A B : List Char} {i : Nat} (hi : i ≤ s.length) :
    (s.take i ++ A ++ B).drop (i + A.length) = B := by
  have hl : (s.take i ++ A).length = i + A.length := by simp; omega
  rw [← hl, List.drop_left]

theorem replaced_span {s A B : List Char} {i : Nat} (hi : i ≤ s.length) :
    ((s.take i ++ A ++ B).drop i).take A.length = A := by
  rw [List.append_assoc, List.drop_append_of_le_length (by simp; omega)]
  have hnil : (s.take i).drop i = [] := by
    apply List.drop_eq_nil_of_le
    simp
  rw [hnil, List.nil_append, List.take_left]

theorem filteredIssues_excludes_resolved (issues : List Issue) (resolved : List Nat)
    (filter : Filter) :
    ∀ p ∈ filteredIssues issues resolved filter, p.1 ∉ resolved := by
  intro p hp
  unfold filteredIssues at hp
  have h1 := (List.mem_filter.mp hp).1
  have h2 := (List.mem_filter.mp h1).2
  simpa using h2

theorem getIssueIndexGo_none (issues : List Issue) (locations : List Loc) (resolved : List Nat)
    (filter : Filter) (s e : Int) (isAdded : Bool) :
    ∀ (fuel i : Nat),
      (∀ k, i ≤ k → ∀ hk : k < locations.length,
        skipAt issues locations resolved filter s e isAdded k hk) →
      getIssueIndexGo issues locations resolved filter s e isAdded fuel i = none := by
  intro fuel
  induction fuel with
  | zero => intro i _; rfl
  | succ fuel ih =>
    intro i hskip
    rw [getIssueIndexGo]
    by_cases hi : i < locations.length
    · rw [dif_pos hi]
      have hnext := ih (i + 1) (fun k hk hklen => hskip k (by omega) hklen)
      have hs := hskip i (le_refl _) hi
      unfold skipAt at hs
      by_cases hres : i ∈ resolved
      · rw [if_pos hres]
        exact hnext
      · rw [if_neg hres]
        split
        · exact hnext
        · rename_i chk hchk
          rw [hchk] at hs
          rcases hs with hs | hs
          · exact absurd hs hres
          by_cases hf : filterExcludes filter chk.type = true
          · rw [if_pos hf]
            exact hnext
          · rw [if_neg hf]
            rcases hs with hs | hs
            · exact absurd hs hf
            simp only
            cases isAdded
            · simp only [Bool.false_eq_true, if_false] at hs ⊢
              rw [if_neg hs]
              exact hnext
            · simp only [eq_self_iff_true, if_true] at hs ⊢
              rw [if_neg hs]
              exact hnext
    · rw [dif_neg hi]

theorem getIssueIndex_none (issues : List Issue) (locations : List Loc) (resolved : List Nat)
    (filter : Filter) (s e : Int) (isAdded : Bool)
    (h : ∀ k, ∀ hk : k < locations.length,
      skipAt issues locations resolved filter s e isAdded k hk) :
    getIssueIndex issues locations resolved filter s e isAdded = none := by
  unfold getIssueIndex
  exact getIssueIndexGo_none issues locations resolved filter s e isAdded locations.length 0
    (fun k _ hk => h k hk)

theorem occCount_unique {needle hay : List Char} (h : occCount needle hay = 1)
    {p q : Nat} (hp : List.isPrefixOf needle (hay.drop p) = true)
    (hq : List.isPrefixOf needle (hay.drop q) = true)
    (hpl : p ≤ hay.length) (hql : q ≤ hay.length) : p = q := by
  unfold occCount at h
  rw [List.countP_eq_length_filter] at h
  obtain ⟨x, hx⟩ := List.length_eq_one.mp h
  have hmem : ∀ r, r ≤ hay.length → List.isPrefixOf needle (hay.drop r) = true →
      r ∈ List.filter (fun i => List.isPrefixOf needle (hay.drop i)) (List.range (hay.length + 1)) := by
    intro r hr hpre
    rw [List.mem_filter]
    exact ⟨List.mem_range.mpr (by omega), hpre⟩
  have h1 := hmem p hpl hp
  have h2 := hmem q hql hq
  rw [hx] at h1 h2
  simp at h1 h2
  omega

theorem locateFromBlocks_length (blocks : List Block) :
    ∀ (issues : List Issue) (cursor : Nat),
      (locateFromBlocks blocks cursor issues).length = issues.length := by
  intro issues
  induction issues with
  | nil => intro cursor; rfl
  | cons iss rest ih =>
    intro cursor
    rw [locateFromBlocks]
    match scanFrom blocks iss cursor with
    | some (i, b) => simp [ih]
    | none => simp [ih]

theorem filterExcludes_of_ne {f t : IssueType} (hne : t ≠ f)
    (hnc : ¬(f = IssueType.style ∧ t = IssueType.suggestion)) :
    filterExcludes (Filter.cat f) t = true := by
  cases f <;> cases t <;> simp_all [filterExcludes]

/-- C6: for every prefix of the scenario-B stream in which the closing quote
of `修复完成` has arrived (length ≥ 23), the partial parser returns
`correctedText = 修复完成` and an empty issue list (the `issues` field is
absent before the `issues` key has arrived and `[]` afterwards; the caller
reads it as `partial.issues || []`).  The parser is a total function, so no
prefix can make it throw. -/
theorem C6_streaming_recovery (n : Nat) (h : 23 ≤ n) :
    (parsePartialJson (scenarioBText.take n)).correctedText = some "修复完成".data ∧
    ((parsePartialJson (scenarioBText.take n)).issues.getD []).isEmpty = true := by
  have hbound : ∀ m, m < 41 → 23 ≤ m →
      (parsePartialJson (scenarioBText.take m)).correctedText = some "修复完成".data ∧
      ((parsePartialJson (scenarioBText.take m)).issues.getD []).isEmpty = true := by
    decide
  rcases le_or_lt n 40 with hle | hgt
  · exact hbound n (by omega) h
  · have hlen : scenarioBText.length = 40 := by decide
    have htake : scenarioBText.take n = scenarioBText.take 40 := by
      rw [List.take_of_length_le (by omega), List.take_of_length_le (by omega)]
    rw [htake]
    exact hbound 40 (by omega) (by omega)

/-- C6 witness: the theorem applied at the prefix of length 23. -/
theorem C6_witness :
    (parsePartialJson (scenarioBText.take 23)).correctedText = some "修复完成".data ∧
    ((parsePartialJson (scenarioBText.take 23)).issues.getD []).isEmpty = true :=
  C6_streaming_recovery 23 (by omega)

/-- C7: for all inputs `a`, `b`, concatenating the values of the non-insert
ops of the diff reproduces `a`, and of the non-delete ops reproduces `b`. -/
theorem C7_diff_reconstruction (a b : List Char) :
    restA (diffChars a b) = a ∧ restB (diffChars a b) = b :=
  ⟨diffChars_restA a b, diffChars_restB a b⟩

/-- C9: totality of the core pipeline on well-typed inputs — the locator
returns one location per issue (or `[]` under the empty-original guard) and
the renderer emits segments whose non-removed text is exactly the current
text; both are total functions of their inputs, as is the diff they
consume. -/
theorem C9_totality (o c cur : List Char) (issues : List Issue) (sel : Option Nat)
    (resolved : List Nat) (filter : Filter) :
    (issueLocations o c issues).length = (if o = [] then 0 else issues.length) ∧
    partsText (processedDiffs o cur issues (issueLocations o c issues) sel resolved filter)
      = cur := by
  constructor
  · unfold issueLocations
    by_cases ho : o = []
    · rw [if_pos ho, if_pos ho]
      rfl
    · rw [if_neg ho, if_neg ho]
      exact locateFromBlocks_length _ issues 0
  · exact processedDiffs_text o cur issues (issueLocations o c issues) sel resolved filter

/-- C2 counterexample: for the empty original text the source locator returns
`[]` (the `!originalText` guard), not the per-issue `⟨-1, -1⟩` entries the
claimed algorithm produces. -/
theorem C2_counterexample :
    issueLocations [] ['a'] [⟨['x'], ['z'], [], IssueType.typo⟩] = [] ∧
    specLocate (buildBlocks (diffChars [] ['a'])) 0 [⟨['x'], ['z'], [], IssueType.typo⟩]
      = [⟨-1, -1⟩] ∧
    ([] : List Loc) ≠ [⟨-1, -1⟩] := by
  refine ⟨by decide, by decide, by decide⟩

/-- C2 (amended to non-empty original texts): the source locator equals the
claim-described algorithm — block cursor from 0, first matching block at or
after the cursor, snippet-offset ranges, insertion anchors, `-1` for
unmatched issues, cursor never moving earlier. -/
theorem C2_locator_refinement (o c : List Char) (issues : List Issue) (ho : o ≠ []) :
    issueLocations o c issues = specLocate (buildBlocks (diffChars o c)) 0 issues := by
  unfold issueLocations
  rw [if_neg ho, specLocate_eq_locateFromBlocks]

/-- C2 witness: the refinement applied to a concrete one-issue correction. -/
theorem C2_witness :
    issueLocations "aXb".data "aYb".data [⟨"X".data, "Y".data, [], IssueType.typo⟩] =
      specLocate (buildBlocks (diffChars "aXb".data "aYb".data)) 0
        [⟨"X".data, "Y".data, [], IssueType.typo⟩] :=
  C2_locator_refinement _ _ _ (by decide)

/-- C3 counterexample: two issues matching inside the same change block get
overlapping ranges — `xABy → xCy` with issues `AB` and `B` yields `[1,3)` and
`[2,3)`, which overlap under the renderer's own overlap test. -/
theorem C3_counterexample :
    issueLocations "xABy".data "xCy".data
      [⟨"AB".data, "q".data, [], IssueType.typo⟩, ⟨"B".data, "q".data, [], IssueType.typo⟩]
      = [⟨1, 3⟩, ⟨2, 3⟩] ∧
    max (1 : Int) 2 < min (3 : Int) 3 := by
  refine ⟨by decide, by decide⟩

/-- C3 witness: the amended invariant applied to two issues located in two
distinct blocks of a concrete diff. -/
theorem C3_witness :
    (issueLocationsB "aXbYc".data "aPbQc".data
      [⟨"X".data, "P".data, [], IssueType.typo⟩, ⟨"Y".data, "Q".data, [], IssueType.typo⟩])[0]?
      = some (some (0, ⟨1, 2⟩)) ∧
    (issueLocationsB "aXbYc".data "aPbQc".data
      [⟨"X".data, "P".data, [], IssueType.typo⟩, ⟨"Y".data, "Q".data, [], IssueType.typo⟩])[1]?
      = some (some (1, ⟨3, 4⟩)) ∧
    ((0 : Nat) ≤ 1 ∧ (1 : Int) ≤ 2 ∧ ((0 : Nat) < 1 → (2 : Int) ≤ 3)) := by
  refine ⟨by decide, by decide, ?_⟩
  have h := (issueLocationsB_invariant "aXbYc".data "aPbQc".data
    [⟨"X".data, "P".data, [], IssueType.typo⟩, ⟨"Y".data, "Q".data, [], IssueType.typo⟩]).2
    0 1 (0, ⟨1, 2⟩) (1, ⟨3, 4⟩) (by omega) (by decide) (by decide)
  exact ⟨h.1, h.2.1, fun _ => h.2.2 (by omega)⟩

/-- C1 counterexample: a prefix of the stream can carry a non-empty
`correctedText` (here `" "`) while the completed stream still makes the
caller receive the hard failure — the trailing fence stripping of
`\s*` + three backticks + `$` erases the whitespace-only capture, so the
final tolerant extraction recovers nothing. -/
theorem C1_counterexample :
    ctTruthy (parsePartialJson "\x7b\"correctedText\":\" ".data) = true ∧
    ("\x7b\"correctedText\":\" ".data ++ fenceMark
      = "\x7b\"correctedText\":\" ".data ++ fenceMark) ∧
    isErr (callOpenAICompatibleFinalize ("\x7b\"correctedText\":\" ".data ++ fenceMark)) = true := by
  refine ⟨by decide, rfl, by decide⟩

/-- C1 (amended): the caller receives a hard failure exactly when the strict
parse of the cleaned final text fails AND no non-empty `correctedText` can be
tolerantly extracted from the *final* accumulated text (a non-empty
extraction at an earlier prefix does not suffice, see `C1_counterexample`).
When the strict parse fails but the final extraction is non-empty, a record
is synthesized carrying the extracted `correctedText`, with the degraded
summary whenever no summary was itself extracted. -/
theorem C1_finalize_recovery (fullText : List Char) :
    (isErr (callOpenAICompatibleFinalize fullText) = true ↔
      (jsonParse (cleanMarkdown fullText) = none ∧
        ctTruthy (parsePartialJson fullText) = false)) ∧
    (jsonParse (cleanMarkdown fullText) = none →
      ctTruthy (parsePartialJson fullText) = true →
      ∃ ct issuesList summ sc,
        callOpenAICompatibleFinalize fullText = .ok (.recovered ct issuesList summ sc) ∧
        (parsePartialJson fullText).correctedText = some ct ∧
        ((parsePartialJson fullText).summary = none → summ = recoverSummaryMsg)) := by
  unfold callOpenAICompatibleFinalize
  match hj : jsonParse (cleanMarkdown fullText) with
  | some v =>
    refine ⟨?_, ?_⟩
    · simp [isErr]
    · intro hnone; cases hnone
  | none =>
    simp only
    refine ⟨?_, ?_⟩
    · unfold ctTruthy
      match hct : (parsePartialJson fullText).correctedText with
      | none => simp [isErr]
      | some ct =>
        by_cases hne : ct = []
        · subst hne; simp [isErr]
        · simp [isErr, hne]
    · intro _ htr
      unfold ctTruthy at htr
      match hct : (parsePartialJson fullText).correctedText with
      | none => rw [hct] at htr; cases htr
      | some ct =>
        rw [hct] at htr
        have hne : ct ≠ [] := by simpa using htr
        refine ⟨ct, (parsePartialJson fullText).issues.getD [],
          (match (parsePartialJson fullText).summary with
           | some s => if s = [] then recoverSummaryMsg else s
           | none => recoverSummaryMsg),
          (match (parsePartialJson fullText).score with
           | some sc => if sc = 0 then 80 else sc
           | none => 80), ?_, rfl, ?_⟩
        · simp [hne]
        · intro hs
          rw [hs]

/-- C1 witness: on a truncated stream with a recoverable `correctedText`, the
completed-stream step does not throw. -/
theorem C1_witness :
    isErr (callOpenAICompatibleFinalize "\x7b\"correctedText\":\"好\",\"issues\":[\x7b\"or".data)
      = false := by
  have h := (C1_finalize_recovery "\x7b\"correctedText\":\"好\",\"issues\":[\x7b\"or".data).1
  match herr : isErr (callOpenAICompatibleFinalize
      "\x7b\"correctedText\":\"好\",\"issues\":[\x7b\"or".data) with
  | false => rfl
  | true =>
    have h2 := h.mp herr
    exact absurd h2.2 (by decide)

/-- C4 counterexample: an issue whose snippet and suggestion are each unique
(`x` in `ax`, `x` in `bx`) but lie outside every change block is returned
unlocated `⟨-1,-1⟩`, not at the snippet's position `[1,2)`. -/
theorem C4_counterexample :
    occCount "x".data "ax".data = 1 ∧
    occCount "x".data "bx".data = 1 ∧
    issueLocations "ax".data "bx".data [⟨"x".data, "x".data, [], IssueType.typo⟩]
      = [⟨-1, -1⟩] ∧
    (⟨-1, -1⟩ : Loc) ≠ ⟨1, 2⟩ := by
  refine ⟨by decide, by decide, by decide, by decide⟩

/-- C4 (amended): the round trip holds when, additionally, the first matching
block's deleted text contains the snippet — a single issue whose original
snippet occurs exactly once in the original text (and whose suggestion occurs
exactly once in the corrected text) is then located at exactly the snippet's
position. -/
theorem C4_round_trip (orig corr : List Char) (iss : Issue) (i off k : Nat) (b : Block)
    (ho : orig ≠ [])
    (hne : iss.original ≠ [])
    (hu1 : occCount iss.original orig = 1)
    (hu2 : occCount iss.suggestion corr = 1)
    (hidx : substrIdx iss.original orig = some i)
    (hscan : scanFrom (buildBlocks (diffChars orig corr)) iss 0 = some (k, b))
    (hoff : substrIdx iss.original b.origText = some off) :
    issueLocations orig corr [iss]
      = [⟨(i : Int), ((i + iss.original.length : Nat) : Int)⟩] := by
  unfold issueLocations
  rw [if_neg ho, locateFromBlocks, hscan]
  show [locResult iss b] = _
  obtain ⟨-, hk, hbeq, -⟩ := scanFrom_some hscan
  obtain ⟨-, hend, hle, hsl⟩ := blocksOK_get (buildBlocks_ok orig corr) k hk
  rw [hbeq] at hend hle hsl
  have hoffle := substrIdx_le_length hoff
  have hpre := substrIdx_occAt hoff
  rw [ List.isPrefixOf_iff_prefix] at hpre
  have hocc : List.isPrefixOf iss.original (orig.drop (b.origStart + off)) = true := by
    rw [ List.isPrefixOf_iff_prefix]
    have h1 : b.origText.drop off = (orig.drop (b.origStart + off)).take (b.origText.length - off) := by
      conv_lhs => rw [← hsl]
      rw [List.drop_take, List.drop_drop]
    rw [h1] at hpre
    exact hpre.trans ( List.take_prefix _ _)
  have hip := substrIdx_occAt hidx
  have heq : b.origStart + off = i := by
    refine occCount_unique hu1 hocc hip ?_ (substrIdx_pos_le hidx)
    omega
  have hlr : locResult iss b =
      ⟨((b.origStart + off : Nat) : Int), (((b.origStart + off) + iss.original.length : Nat) : Int)⟩ := by
    unfold locResult
    rw [if_pos hne, hoff]
  rw [hlr, heq]

/-- C4 witness: the amended round trip on `aXb → aYb` with issue `X → Y`. -/
theorem C4_witness :
    issueLocations "aXb".data "aYb".data [⟨"X".data, "Y".data, [], IssueType.typo⟩]
      = [⟨(1 : Int), (2 : Int)⟩] := by
  have h := C4_round_trip "aXb".data "aYb".data ⟨"X".data, "Y".data, [], IssueType.typo⟩
    1 0 0 ⟨1, 2, "X".data, "Y".data⟩ (by decide) (by decide) (by decide) (by decide)
    (by decide) (by decide) (by decide)
  simpa using h

/-- C5 counterexample: with suggestion `s` occurring exactly once in the
current text, at the issue's own span, ignoring an issue whose original
snippet is `$&` leaves the span equal to `s` (the JS replacement template
expands `$&` to the matched text), not to the snippet. -/
theorem C5_counterexample :
    substrIdx "s".data "s".data = some 0 ∧
    occCount "s".data "s".data = 1 ∧
    (handleAction 0 IssueAction.ignore "$&".data "s".data ⟨[], "s".data, []⟩).1.currentText
      = "s".data ∧
    "s".data ≠ "$&".data := by
  refine ⟨by decide, by decide, by decide, by decide⟩

/-- C5 (amended): when the first occurrence of the issue's suggestion in the
current text is the issue's span and the original snippet contains no
replacement-template escape (`$$`, `$&`, dollar-backtick, `$'`), the `ignore`
action rewrites exactly that span back to the original snippet — the text
before and after the span is unchanged — emits nothing, and the issue leaves
the active (filtered) issue set; `whitelist` produces the same text and
additionally emits the original snippet to the whitelist collaborator. -/
theorem C5_ignore_reverts (issues : List Issue) (filter : Filter) (st : ViewState)
    (idx p : Nat) (orig sugg : List Char)
    (hfirst : substrIdx sugg st.currentText = some p)
    (hesc : noEscape orig = true) :
    (((handleAction idx IssueAction.ignore orig sugg st).1.currentText.drop p).take orig.length
        = orig ∧
      (handleAction idx IssueAction.ignore orig sugg st).1.currentText.take p
        = st.currentText.take p ∧
      (handleAction idx IssueAction.ignore orig sugg st).1.currentText.drop (p + orig.length)
        = st.currentText.drop (p + sugg.length) ∧
      (handleAction idx IssueAction.ignore orig sugg st).2 = none ∧
      (∀ q ∈ filteredIssues issues
          (handleAction idx IssueAction.ignore orig sugg st).1.resolvedIndices filter,
        q.1 ≠ idx)) ∧
    ((handleAction idx IssueAction.whitelist orig sugg st).1.currentText
        = (handleAction idx IssueAction.ignore orig sugg st).1.currentText ∧
      (handleAction idx IssueAction.whitelist orig sugg st).2 = some orig ∧
      (∀ q ∈ filteredIssues issues
          (handleAction idx IssueAction.whitelist orig sugg st).1.resolvedIndices filter,
        q.1 ≠ idx)) := by
  have hple := substrIdx_pos_le hfirst
  have htext : ∀ a, a = IssueAction.ignore ∨ a = IssueAction.whitelist →
      (handleAction idx a orig sugg st).1.currentText
        = st.currentText.take p ++ orig ++ st.currentText.drop (p + sugg.length) := by
    intro a ha
    unfold handleAction
    simp only
    rw [if_pos ha]
    exact jsReplace_found hfirst hesc
  have hresolved : ∀ a q, q ∈ filteredIssues issues
      (handleAction idx a orig sugg st).1.resolvedIndices filter → q.1 ≠ idx := by
    intro a q hq
    have := filteredIssues_excludes_resolved issues
      (handleAction idx a orig sugg st).1.resolvedIndices filter q hq
    unfold handleAction at this
    simp only at this
    intro hqi
    exact this (by rw [hqi]; exact List.mem_cons_self _ _)
  refine ⟨⟨?_, ?_, ?_, ?_, fun q hq => hresolved _ q hq⟩,
    ⟨?_, ?_, fun q hq => hresolved _ q hq⟩⟩
  · rw [htext _ (Or.inl rfl)]
    exact replaced_span hple
  · rw [htext _ (Or.inl rfl)]
    exact replaced_take hple
  · rw [htext _ (Or.inl rfl)]
    have := replaced_drop (A := orig) (B := st.currentText.drop (p + sugg.length)) hple
    exact this
  · unfold handleAction
    simp
  · rw [htext _ (Or.inl rfl), htext _ (Or.inr rfl)]
  · unfold handleAction
    simp

/-- C5 witness: the amended revert on `xsy` with suggestion `s` and original
snippet `oo`. -/
theorem C5_witness :
    ((handleAction 0 IssueAction.ignore "oo".data "s".data
        ⟨[], "xsy".data, []⟩).1.currentText.drop 1).take 2 = "oo".data ∧
    (handleAction 0 IssueAction.whitelist "oo".data "s".data
        ⟨[], "xsy".data, []⟩).2 = some "oo".data := by
  have h := C5_ignore_reverts [] Filter.all ⟨[], "xsy".data, []⟩ 0 1 "oo".data "s".data
    (by decide) (by decide)
  exact ⟨h.1.1, h.2.2.1⟩

/-- C8: under an active category filter equal to issue `a`'s category, a
segment range that overlaps only issue `b`'s location (a located issue of a
different category, not covered by the combined style filter) resolves to no
issue index at all — the segment is not interactive although a location for
`b` exists; and the combined `style` filter does additionally match the
`suggestion` category. -/
theorem C8_filter_interaction (issues : List Issue) (locations : List Loc)
    (resolved : List Nat) (a b : Nat) (issA issB : Issue) (s e : Int) (isAdded : Bool)
    (hA : issues[a]? = some issA) (hB : issues[b]? = some issB)
    (hdiff : issB.type ≠ issA.type)
    (hnc : ¬(issA.type = IssueType.style ∧ issB.type = IssueType.suggestion))
    (hlen : locations.length = issues.length)
    (hbloc : b < locations.length)
    (hlocated : locations[b].start ≠ -1)
    (hoverlap : if isAdded then locations[b].start ≤ s ∧ s ≤ locations[b].stop
                else max s locations[b].start < min e locations[b].stop)
    (hothers : ∀ k, ∀ hk : k < locations.length, k ≠ b →
      (if isAdded then ¬(locations[k].start ≤ s ∧ s ≤ locations[k].stop)
       else ¬(max s locations[k].start < min e locations[k].stop))) :
    getIssueIndex issues locations resolved (Filter.cat issA.type) s e isAdded = none ∧
    filterExcludes (Filter.cat IssueType.style) IssueType.suggestion = false := by
  refine ⟨?_, by cases hs : issA.type <;> rfl⟩
  apply getIssueIndex_none
  intro k hk
  unfold skipAt
  by_cases hkb : k = b
  · subst hkb
    rw [hB]
    right
    left
    exact filterExcludes_of_ne hdiff hnc
  · right
    match hchk : issues[k]? with
    | none => trivial
    | some chk =>
      right
      exact hothers k hk hkb

/-- C8 witness: two located issues of categories `typo` and `grammar` under
the `typo` filter, with a segment overlapping only the `grammar` issue. -/
theorem C8_witness :
    getIssueIndex
      [⟨"a".data, "b".data, [], IssueType.typo⟩, ⟨"c".data, "d".data, [], IssueType.grammar⟩]
      [⟨0, 1⟩, ⟨2, 3⟩] [] (Filter.cat IssueType.typo) 2 3 false = none ∧
    filterExcludes (Filter.cat IssueType.style) IssueType.suggestion = false := by
  have h := C8_filter_interaction
    [⟨"a".data, "b".data, [], IssueType.typo⟩, ⟨"c".data, "d".data, [], IssueType.grammar⟩]
    [⟨0, 1⟩, ⟨2, 3⟩] [] 0 1
    ⟨"a".data, "b".data, [], IssueType.typo⟩ ⟨"c".data, "d".data, [], IssueType.grammar⟩
    2 3 false (by decide) (by decide) (by decide) (by decide) (by decide) (by decide)
    (by decide) (by decide) (by decide)
  exact h

/-- C10 (implicit): when the issue's suggestion does not occur in the current
text, `ignore`/`whitelist` leave the text unchanged, still mark the issue
resolved (it leaves the active set), and `whitelist` still emits the original
snippet; when the suggestion does occur, only its leftmost occurrence is
replaced — the text before it and after it is preserved verbatim. -/
theorem C10_absent_target (issues : List Issue) (filter : Filter) (st : ViewState)
    (idx : Nat) (orig sugg : List Char) (action : IssueAction)
    (hact : action = IssueAction.ignore ∨ action = IssueAction.whitelist) :
    (substrIdx sugg st.currentText = none →
      ((handleAction idx action orig sugg st).1.currentText = st.currentText ∧
        idx ∈ (handleAction idx action orig sugg st).1.resolvedIndices ∧
        (∀ q ∈ filteredIssues issues
            (handleAction idx action orig sugg st).1.resolvedIndices filter, q.1 ≠ idx) ∧
        (handleAction idx action orig sugg st).2
          = (if action = IssueAction.whitelist then some orig else none))) ∧
    (∀ p, substrIdx sugg st.currentText = some p →
      ((handleAction idx action orig sugg st).1.currentText.take p = st.currentText.take p ∧
        (∀ q, q < p → ¬ List.isPrefixOf sugg (st.currentText.drop q) = true) ∧
        (handleAction idx action orig sugg st).1.currentText.drop
            (p + (dollarSubst sugg (st.currentText.take p)
              (st.currentText.drop (p + sugg.length)) orig).length)
          = st.currentText.drop (p + sugg.length))) := by
  constructor
  · intro hmiss
    have htext : (handleAction idx action orig sugg st).1.currentText = st.currentText := by
      unfold handleAction
      simp only
      rw [if_pos hact]
      exact jsReplace_not_found hmiss
    refine ⟨htext, ?_, ?_, ?_⟩
    · unfold handleAction
      exact List.mem_cons_self _ _
    · intro q hq
      have := filteredIssues_excludes_resolved issues
        (handleAction idx action orig sugg st).1.resolvedIndices filter q hq
      unfold handleAction at this
      simp only at this
      intro hqi
      exact this (by rw [hqi]; exact List.mem_cons_self _ _)
    · unfold handleAction
      simp only
  · intro p hp
    have hple := substrIdx_pos_le hp
    have htext : (handleAction idx action orig sugg st).1.currentText
        = st.currentText.take p
            ++ dollarSubst sugg (st.currentText.take p)
                (st.currentText.drop (p + sugg.length)) orig
            ++ st.currentText.drop (p + sugg.length) := by
      unfold handleAction
      simp only
      rw [if_pos hact]
      unfold jsReplace
      rw [hp]
    refine ⟨?_, ?_, ?_⟩
    · rw [htext]
      exact replaced_take hple
    · exact substrIdx_least hp
    · rw [htext]
      exact replaced_drop hple

/-- C10 witness: a missing suggestion (`zz` in `ab`) leaves the text intact
while still emitting on `whitelist`; a duplicated suggestion (`s` in `ss`)
is replaced only at its leftmost occurrence, the suffix `s` surviving. -/
theorem C10_witness :
    ((handleAction 0 IssueAction.whitelist "o".data "zz".data
        ⟨[], "ab".data, []⟩).1.currentText = "ab".data ∧
      (handleAction 0 IssueAction.whitelist "o".data "zz".data
        ⟨[], "ab".data, []⟩).2 = some "o".data) ∧
    (handleAction 0 IssueAction.ignore "o".data "s".data
        ⟨[], "ss".data, []⟩).1.currentText.drop 1 = "s".data := by
  have h1 := (C10_absent_target [] Filter.all ⟨[], "ab".data, []⟩ 0 "o".data "zz".data
    IssueAction.whitelist (Or.inr rfl)).1 (by decide)
  have h2 := (C10_absent_target [] Filter.all ⟨[], "ss".data, []⟩ 0 "o".data "s".data
    IssueAction.ignore (Or.inl rfl)).2 0 (by decide)
  refine ⟨⟨h1.1, ?_⟩, ?_⟩
  · rw [h1.2.2.2]
    rfl
  · have h3 := h2.2.2
    simpa using h3

end GrammarZen

